import Mathlib

/-!
# Gorev-8: workers incrementing a shared atomic counter, with buffered console output

A shallow embedding of `src/Gorev-8.cpp`.

* `PrintAtOnce` is the buffered writer: `shl` is `operator<<`, `flush` hands the whole
  buffer to `std::cout` in one stream insertion and resets the buffer, `dtor` is the
  destructor.
* `TestThreads` holds what one instance owns: its identity and the local state of its
  background thread running `thread_func_increase_a`.
* `State` is the whole process: the static members `last_id` and `a`, the vector built by
  `main`, the program counter of `main`, and the console.

Threads are interleaved at the granularity of their accesses to shared state: one stream
insertion on `std::cout`, one atomic `++a`, one construction or destruction of a vector
element are each one step, and a schedule names the thread that makes the next step.
`sleep_for` only delays a thread and is a no-op here. The console is the sequence of
insertions that were issued, and its text is their concatenation; how the runtime lays out
the bytes of two insertions that overlap in time is below this model. Next to the console
the state keeps the trace of the execution: every insertion with the thread that made it,
and every increment with the value it returned. No step reads the trace.

The `int` is 32 bits wide. Arithmetic on `std::atomic<int>` wraps around; overflow of the
plain `int` `last_id` is undefined, and a step that would overflow it does not exist.
-/

namespace Gorev8

/-! ## Integers -/

/-- Largest value of the C++ `int` (32 bits). -/
def INT_MAX : Int := 2147483647

/-- Two's complement wrap-around into the 32-bit `int`, the result of arithmetic on
`std::atomic<int>`. -/
def wrapInt (x : Int) : Int := (x + 2147483648) % 4294967296 - 2147483648

/-- Decimal text of an `int`, as `operator<<(int)` formats it. -/
def fmtInt : Int → String
  | Int.ofNat m => Nat.repr m
  | Int.negSucc m => "-" ++ Nat.repr (m + 1)

/-! ## PrintAtOnce -/

/-- The class `PrintAtOnce`: its only member is the buffer `ss`. -/
structure PrintAtOnce where
  ss : String
deriving DecidableEq, Repr

namespace PrintAtOnce

/-- The defaulted constructor: an empty buffer. -/
def new : PrintAtOnce := { ss := "" }

/-- `operator<<`: `ss << x`, with `x` already formatted as text. -/
def shl (p : PrintAtOnce) (x : String) : PrintAtOnce := { ss := p.ss ++ x }

/-- `flush`: `std::cout << ss.str(); ss = std::stringstream();`. The console is the list of
insertions made so far. -/
def flush (p : PrintAtOnce) (cout : List String) : PrintAtOnce × List String :=
  ({ ss := "" }, cout ++ [p.ss])

/-- The destructor `~PrintAtOnce`: calls `flush`. -/
def dtor (p : PrintAtOnce) (cout : List String) : List String :=
  (p.flush cout).2

end PrintAtOnce

/-- One call made on a `PrintAtOnce` during its lifetime. -/
inductive Call where
  | shl (x : String)
  | flush
deriving DecidableEq, Repr

/-- Apply one call to a `PrintAtOnce` and the console. -/
def applyCall (pc : PrintAtOnce × List String) : Call → PrintAtOnce × List String
  | Call.shl x => (pc.1.shl x, pc.2)
  | Call.flush => pc.1.flush pc.2

/-- A whole lifetime of one `PrintAtOnce`: construction, the calls in order, destruction.
Returns the console afterwards. -/
def lifetime (calls : List Call) (cout : List String) : List String :=
  let r := calls.foldl applyCall (PrintAtOnce.new, cout)
  r.1.dtor r.2

/-- The values appended by a sequence of calls, in order. -/
def appended : List Call → List String
  | [] => []
  | Call.shl x :: cs => x :: appended cs
  | Call.flush :: cs => appended cs

/-- The text on the console: the insertions one after another. -/
def consoleText (cout : List String) : String := String.join cout

/-! ## TestThreads -/

/-- Where the background thread stands inside one iteration of the loop of
`thread_func_increase_a`. -/
inductive Pc where
  /-- At the loop test `i < increase_amount`. -/
  | head
  /-- After `msg.flush()`, before the statement containing `++a`. -/
  | flushed
  /-- After the statement containing `++a`, before `msg` is destroyed. -/
  | incremented
deriving DecidableEq, Repr

/-- One `TestThreads` instance together with the locals of its background thread. -/
structure TestThreads where
  /-- The member `this_id`. -/
  this_id : Int
  /-- The loop variable `i`. -/
  i : Nat
  pc : Pc
  /-- The local `msg` of the current iteration. -/
  msg : PrintAtOnce
deriving DecidableEq, Repr

/-- Program counter of `main`. -/
inductive MainPc where
  /-- Inside `std::vector<TestThreads> thrVec(N)`; while the vector is not full the next
  step constructs an element, afterwards it inserts the "Waiting" text. -/
  | construct
  /-- Before `<< std::endl`. -/
  | endl
  /-- At the end of the scope: `j` elements are destroyed; when all are, the next step
  inserts the "All jobs finished" text. -/
  | destroy (j : Nat)
  /-- After `return 0`. -/
  | exit
deriving DecidableEq, Repr

/-- What is observed of an execution. -/
inductive Event where
  /-- A stream insertion on `std::cout` by thread `t` (`none` is the main thread, `some w`
  the background thread of vector element `w`). -/
  | out (t : Option Nat) (s : String)
  /-- An evaluation of `++a` by the background thread of element `w`, returning `v`. -/
  | inc (w : Nat) (v : Int)
deriving DecidableEq, Repr

/-- The parameters of the program. -/
structure Config where
  /-- Size of `thrVec` (4 in `main`). -/
  N : Nat
  /-- The argument `increase_amount` (5 in the constructor). -/
  increase_amount : Int
  /-- Whether the vector destroys its elements last to first; the order is the standard
  library's choice. -/
  reverseDestroy : Bool
deriving DecidableEq, Repr

/-- The program as written: four workers, five increments each. -/
def program : Config := { N := 4, increase_amount := 5, reverseDestroy := false }

/-- The whole process. -/
structure State where
  /-- The static member `last_id`. -/
  last_id : Int
  /-- The static member `a`. -/
  a : Int
  /-- The vector `thrVec` of `main`, as far as constructed. -/
  thrVec : List TestThreads
  pc : MainPc
  /-- The console: the insertions made on `std::cout`, in order. -/
  cout : List String
  /-- The events of the execution so far, in order. -/
  trace : List Event
deriving DecidableEq, Repr

/-- The state at program start. -/
def init : State :=
  { last_id := 0, a := 0, thrVec := [], pc := MainPc.construct, cout := [], trace := [] }

/-- The text of the first message of an iteration. -/
def increasingLine (id : Int) : String :=
  ((PrintAtOnce.new.shl (fmtInt id)).shl ") increasing a\n").ss

/-- The text of the second message of an iteration. -/
def increasedLine (id v : Int) : String :=
  ((((PrintAtOnce.new.shl (fmtInt id)).shl ") a is increased to ").shl (fmtInt v)).shl "\n").ss

/-- The text of the message of the destructor. -/
def terminatedLine (id : Int) : String :=
  ((PrintAtOnce.new.shl (fmtInt id)).shl ") is terminated\n").ss

/-- The background thread has returned from `thread_func_increase_a`. -/
def TestThreads.finished (c : Config) (t : TestThreads) : Bool :=
  t.pc == Pc.head && !decide ((t.i : Int) < c.increase_amount)

/-- One step of the background thread of element `w`: the part of
`thread_func_increase_a` up to and including its next access to the console or to `a`. -/
def thread_func_increase_a (c : Config) (s : State) (w : Nat) : Option State :=
  match s.thrVec[w]? with
  | none => none
  | some t =>
    match t.pc with
    | Pc.head =>
      if (t.i : Int) < c.increase_amount then
        let msg := (PrintAtOnce.new.shl (fmtInt t.this_id)).shl ") increasing a\n"
        let r := msg.flush s.cout
        some { s with
          thrVec := s.thrVec.set w { t with pc := Pc.flushed, msg := r.1 }
          cout := r.2
          trace := s.trace ++ [Event.out (some w) msg.ss] }
      else none
    | Pc.flushed =>
      let v := wrapInt (s.a + 1)
      let msg := (((t.msg.shl (fmtInt t.this_id)).shl ") a is increased to ").shl
        (fmtInt v)).shl "\n"
      some { s with
        a := v
        thrVec := s.thrVec.set w { t with pc := Pc.incremented, msg := msg }
        trace := s.trace ++ [Event.inc w v] }
    | Pc.incremented =>
      let r := t.msg.flush s.cout
      some { s with
        thrVec := s.thrVec.set w { t with pc := Pc.head, i := t.i + 1, msg := r.1 }
        cout := r.2
        trace := s.trace ++ [Event.out (some w) t.msg.ss] }

/-- The element destroyed as number `j` by the vector's destructor. -/
def destroyIdx (c : Config) (j : Nat) : Nat :=
  if c.reverseDestroy then c.N - 1 - j else j

/-- One step of the main thread. Constructing an element evaluates `++last_id` (signed
overflow is undefined: no step) and starts the background thread. Destroying an element
joins its thread, so the step waits until that thread has returned, and then prints through
a temporary `PrintAtOnce`. -/
def mainStep (c : Config) (s : State) : Option State :=
  match s.pc with
  | MainPc.construct =>
    if s.thrVec.length < c.N then
      if s.last_id < INT_MAX then
        let id := s.last_id + 1
        some { s with
          last_id := id
          thrVec := s.thrVec ++ [{ this_id := id, i := 0, pc := Pc.head, msg := PrintAtOnce.new }] }
      else none
    else
      let x := "Waiting for the parallel jobs to be finished"
      some { s with pc := MainPc.endl, cout := s.cout ++ [x],
                    trace := s.trace ++ [Event.out none x] }
  | MainPc.endl =>
    some { s with pc := MainPc.destroy 0, cout := s.cout ++ ["\n"],
                  trace := s.trace ++ [Event.out none "\n"] }
  | MainPc.destroy j =>
    if j < c.N then
      match s.thrVec[destroyIdx c j]? with
      | none => none
      | some t =>
        if t.finished c then
          let msg := (PrintAtOnce.new.shl (fmtInt t.this_id)).shl ") is terminated\n"
          some { s with pc := MainPc.destroy (j + 1), cout := msg.dtor s.cout,
                        trace := s.trace ++ [Event.out none msg.ss] }
        else none
    else
      let x := "All jobs finished! Terminating program...\n"
      some { s with pc := MainPc.exit, cout := s.cout ++ [x],
                    trace := s.trace ++ [Event.out none x] }
  | MainPc.exit => none

/-- One step of the thread chosen by the scheduler: `none` is the main thread, `some w` the
background thread of element `w`. The result is `none` when that thread cannot move. -/
def step (c : Config) (s : State) : Option Nat → Option State
  | none => mainStep c s
  | some w => thread_func_increase_a c s w

/-- Run a schedule from a state. -/
def run (c : Config) (s : State) : List (Option Nat) → Option State
  | [] => some s
  | t :: ts => (step c s t).bind (fun s' => run c s' ts)

/-- The schedule in which the main thread builds the vector and prints, then each worker in
turn runs its whole loop, then the main thread destroys the vector and prints. -/
def seqSchedule (N K : Nat) : List (Option Nat) :=
  List.replicate (N + 2) none
    ++ (List.range N).flatMap (fun w => List.replicate (3 * K) (some w))
    ++ List.replicate (N + 1) none

/-! ## Reading an execution -/

/-- The thread that produced an event. -/
def Event.thread : Event → Option Nat
  | Event.out t _ => t
  | Event.inc w _ => some w

/-- The events of one thread, in order. -/
def eventsOf (t : Option Nat) (tr : List Event) : List Event :=
  tr.filter (fun e => decide (e.thread = t))

/-- The text of an event, when it is a console insertion. -/
def Event.text : Event → Option String
  | Event.out _ x => some x
  | Event.inc _ _ => none

/-- The value of an event, when it is an increment. -/
def Event.value : Event → Option Int
  | Event.out _ _ => none
  | Event.inc _ v => some v

/-- The console insertions of a trace, in order. -/
def outs (tr : List Event) : List String := tr.filterMap Event.text

/-- The values returned by the increments of a trace, in order. -/
def rets (tr : List Event) : List Int := tr.filterMap Event.value

/-- The events of one full iteration of the loop of element `w` with identity `id`, whose
increment returned `v`. -/
def iteration (w : Nat) (id v : Int) : List Event :=
  [Event.out (some w) (increasingLine id), Event.inc w v,
   Event.out (some w) (increasedLine id v)]

/-- The number of iterations the loop makes: `increase_amount`, or none when it is
negative. -/
def Config.iterations (c : Config) : Nat := c.increase_amount.toNat

/-- The number of increments a background thread has made. -/
def incsOf (t : TestThreads) : Nat := t.i + (if t.pc = Pc.incremented then 1 else 0)

/-- The number of increments all background threads have made. -/
def total (ts : List TestThreads) : Nat := (ts.map incsOf).sum

/-- The number of steps a background thread still has to make. -/
def remaining (c : Config) (t : TestThreads) : Nat :=
  3 * (c.iterations - t.i) - (match t.pc with
    | Pc.head => 0
    | Pc.flushed => 1
    | Pc.incremented => 2)

/-- The number of steps all background threads still have to make. -/
def workRemaining (c : Config) (ts : List TestThreads) : Nat := (ts.map (remaining c)).sum

/-- The number of steps the main thread still has to make once the vector is built. -/
def mainRemaining (c : Config) : MainPc → Nat
  | MainPc.construct => c.N + 3
  | MainPc.endl => c.N + 2
  | MainPc.destroy j => c.N - j + 1
  | MainPc.exit => 0

/-- What holds of element `w` and the events `ev` of its background thread. -/
def ThreadInv (c : Config) (ev : List Event) (w : Nat) (t : TestThreads) : Prop :=
  t.this_id = (w : Int) + 1 ∧ t.i ≤ c.iterations ∧ (t.pc ≠ Pc.head → t.i < c.iterations) ∧
  ∃ vs : List Int, vs.length = t.i ∧
    match t.pc with
    | Pc.head => ev = vs.flatMap (iteration w t.this_id)
    | Pc.flushed =>
      ev = vs.flatMap (iteration w t.this_id) ++ [Event.out (some w) (increasingLine t.this_id)]
        ∧ t.msg.ss = ""
    | Pc.incremented => ∃ v,
      ev = vs.flatMap (iteration w t.this_id)
          ++ [Event.out (some w) (increasingLine t.this_id), Event.inc w v]
        ∧ t.msg.ss = increasedLine t.this_id v

/-- The console insertion of the destructor of the element destroyed as number `q`. -/
def terminatedEvent (c : Config) (q : Nat) : Event :=
  Event.out none (terminatedLine ((destroyIdx c q : Nat) + 1))

/-- What holds of the main thread and its events `ev`. -/
def MainInv (c : Config) (ev : List Event) (ts : List TestThreads) : MainPc → Prop
  | MainPc.construct => ev = []
  | MainPc.endl => ts.length = c.N ∧
      ev = [Event.out none "Waiting for the parallel jobs to be finished"]
  | MainPc.destroy j => ts.length = c.N ∧ j ≤ c.N ∧
      ev = [Event.out none "Waiting for the parallel jobs to be finished", Event.out none "\n"]
        ++ (List.range j).map (terminatedEvent c) ∧
      ∀ q, q < j → ∃ t, ts[destroyIdx c q]? = some t ∧ t.finished c = true
  | MainPc.exit => ts.length = c.N ∧
      ev = [Event.out none "Waiting for the parallel jobs to be finished", Event.out none "\n"]
        ++ (List.range c.N).map (terminatedEvent c)
        ++ [Event.out none "All jobs finished! Terminating program...\n"] ∧
      ∀ q, q < c.N → ∃ t, ts[destroyIdx c q]? = some t ∧ t.finished c = true

/-- Wherever the console insertion of a destructor stands in the trace, the background
thread of the destroyed element has made all its iterations before it. -/
def TermAfter (c : Config) (tr : List Event) : Prop :=
  ∀ pre post id, tr = pre ++ Event.out none (terminatedLine id) :: post →
    ∃ (w : Nat) (vs : List Int), id = (w : Int) + 1 ∧ w < c.N ∧ vs.length = c.iterations ∧
      eventsOf (some w) pre = vs.flatMap (iteration w id)

/-- The invariant of the process. -/
structure Inv (c : Config) (s : State) : Prop where
  cout_eq : s.cout = outs s.trace
  last_id_eq : s.last_id = (s.thrVec.length : Int)
  len_le : s.thrVec.length ≤ c.N
  a_eq : s.a = wrapInt (total s.thrVec)
  rets_eq : rets s.trace = (List.range (total s.thrVec)).map (fun (j : Nat) => wrapInt ((j : Int) + 1))
  unborn : ∀ w, s.thrVec.length ≤ w → eventsOf (some w) s.trace = []
  thread : ∀ w t, s.thrVec[w]? = some t → ThreadInv c (eventsOf (some w) s.trace) w t
  main : MainInv c (eventsOf none s.trace) s.thrVec s.pc
  term_after : TermAfter c s.trace

/-- Value of a decimal digit character. -/
def digitVal (ch : Char) : Nat := ch.toNat - 48

/-- Value of a string of decimal digits. -/
def decode (cs : List Char) : Nat := cs.foldl (fun acc ch => acc * 10 + digitVal ch) 0

/-! ## What the properties speak about -/

/-- All background threads exist and have returned: all workers' loops have completed. -/
def AllFinished (c : Config) (s : State) : Prop :=
  s.thrVec.length = c.N ∧ ∀ t ∈ s.thrVec, t.finished c = true

/-- The state the program ends in under `seqSchedule`. -/
def finalState : State := (run program init (seqSchedule 4 5)).getD init

/-- The program with a repetition count of `2^29`: the four workers make `2^31` increments
in all. -/
def overflowProgram : Config :=
  { N := 4, increase_amount := 536870912, reverseDestroy := false }

/-- The text `x` is, in full, a line of one of the three forms
`<id>) increasing a`, `<id>) a is increased to <value>`, `<id>) is terminated`. -/
def IsTemplateLine (x : String) : Prop :=
  ∃ id v : Int, x = increasingLine id ∨ x = increasedLine id v ∨ x = terminatedLine id

/-- The lines of a text: the pieces between line feeds; `cur` is the line being read,
last character first. -/
def linesAux : List Char → List Char → List String
  | [], cur => if cur = [] then [] else [String.mk cur.reverse]
  | ch :: cs, cur =>
    if ch = '\n' then String.mk cur.reverse :: linesAux cs [] else linesAux cs (ch :: cur)

/-- The lines of the console text, without their line feeds. -/
def consoleLines (cout : List String) : List String :=
  linesAux (consoleText cout).data []

/-- A schedule of the program in which the second worker prints between the two messages
of the first iteration of the first worker; afterwards the workers run one after another. -/
def interleavedSchedule : List (Option Nat) :=
  List.replicate 6 none ++ [some 0, some 1, some 0, some 0]
    ++ List.replicate 12 (some 0) ++ List.replicate 14 (some 1)
    ++ List.replicate 15 (some 2) ++ List.replicate 15 (some 3)
    ++ List.replicate 5 none

/-- The state the program ends in under `interleavedSchedule`. -/
def interleavedState : State := (run program init interleavedSchedule).getD init

/-! ## Constructors running at the same time

`main` constructs the elements of the vector one after another, so in the program the
evaluations of `++last_id` never overlap. `last_id` is a plain `int`: `++last_id` loads the
value and later stores the value plus one, which is how the comment on `a` in the source
describes an increment that is not atomic ("they both get the value 5, they will both write
6"). The following small machine lets several constructors evaluate `++last_id` at the same
time. -/

/-- Where one constructor stands in `this_id(++last_id)`. -/
inductive CtorPc where
  /-- Before the load of `last_id`. -/
  | start
  /-- After the load, which gave `tmp`, before the store. -/
  | loaded (tmp : Int)
  /-- After the store; `this_id` is initialised. -/
  | done (this_id : Int)
deriving DecidableEq, Repr

/-- Several constructors and the static member they share. -/
structure CtorState where
  last_id : Int
  ctors : List CtorPc
deriving DecidableEq, Repr

/-- One step of constructor `k`: the load, or the store (signed overflow is undefined: no
step). -/
def stepCtor (s : CtorState) (k : Nat) : Option CtorState :=
  match s.ctors[k]? with
  | none => none
  | some CtorPc.start => some { s with ctors := s.ctors.set k (CtorPc.loaded s.last_id) }
  | some (CtorPc.loaded tmp) =>
    if tmp < INT_MAX then
      some { last_id := tmp + 1, ctors := s.ctors.set k (CtorPc.done (tmp + 1)) }
    else none
  | some (CtorPc.done _) => none

/-- Run a schedule of constructor steps. -/
def runCtors (s : CtorState) : List Nat → Option CtorState
  | [] => some s
  | k :: ks => (stepCtor s k).bind (fun s' => runCtors s' ks)

/-- The identities of the elements of the vector, in order. -/
def identities (s : State) : List Int := s.thrVec.map (fun t => t.this_id)

/-- The console insertions of the background thread of an element with identity `id` whose
increments returned `vs`: for each iteration the first message, then the second. -/
def ownMessages (id : Int) (vs : List Int) : List String :=
  vs.flatMap (fun v => [increasingLine id, increasedLine id v])

/-! ## Reading the console text line by line -/

/-- The termination line of `id` as it reads on the console, without its line feed. -/
def terminatedText (id : Int) : String := fmtInt id ++ ") is terminated"

/-- The lines completed while reading the characters `cs` after the unfinished line `cur`
(last character first). -/
def emit : List Char → List Char → List String
  | [], _ => []
  | ch :: cs, cur =>
    if ch = '\n' then String.mk cur.reverse :: emit cs [] else emit cs (ch :: cur)

/-- The unfinished line (last character first) after reading the characters `cs` after the
unfinished line `cur`. -/
def carry : List Char → List Char → List Char
  | [], cur => cur
  | ch :: cs, cur => if ch = '\n' then carry cs [] else carry cs (ch :: cur)

/-- The insertion `x` is one whole line: its only line feed is its last character. -/
def FullLine (x : String) : Prop := ∃ L : List Char, x.data = L ++ ['\n'] ∧ '\n' ∉ L

/-- The first message of an iteration as it reads on the console, without its line feed. -/
def increasingText (id : Int) : String := fmtInt id ++ ") increasing a"

/-- The second message of an iteration as it reads on the console, without its line
feed. -/
def increasedText (id v : Int) : String := fmtInt id ++ ") a is increased to " ++ fmtInt v

/-- The insertion `x` is, in full, one message of a worker with an identity in `1..N`, with
its line feed. -/
def WorkerLine (c : Config) (x : String) : Prop :=
  ∃ id v : Int, 1 ≤ id ∧ id ≤ (c.N : Int) ∧ (x = increasingLine id ∨ x = increasedLine id v)

/-- The insertion `x` is, in full, the termination line of an identity in `1..N`, with its
line feed. -/
def DestructorLine (c : Config) (x : String) : Prop :=
  ∃ id : Int, 1 ≤ id ∧ id ≤ (c.N : Int) ∧ x = terminatedLine id

/-- The text `l` is one message of a worker with an identity in `1..N`, without line
feed. -/
def WorkerText (c : Config) (l : String) : Prop :=
  ∃ id v : Int, 1 ≤ id ∧ id ≤ (c.N : Int) ∧ (l = increasingText id ∨ l = increasedText id v)

/-- The line `l` is, in full, of one of the three forms `<id>) increasing a`,
`<id>) a is increased to <value>`, `<id>) is terminated`, with an identity in `1..N`. -/
def TemplateText (c : Config) (l : String) : Prop :=
  ∃ id v : Int, 1 ≤ id ∧ id ≤ (c.N : Int) ∧
    (l = increasingText id ∨ l = increasedText id v ∨ l = terminatedText id)

/-- The three ways the lines of the console text can read: messages of workers only; or
messages of workers, then the "Waiting" text of `main` alone on its line, then lines of the
three forms and the last line of `main`; or messages of workers, then the "Waiting" text
directly followed on its line by one message `m` of a worker, then lines of the three
forms, the last line of `main`, and empty lines. -/
def LinesShape (c : Config) (lines : List String) : Prop :=
  (∀ l ∈ lines, WorkerText c l) ∨
  (∃ P Q, lines = P ++ "Waiting for the parallel jobs to be finished" :: Q ∧
    (∀ l ∈ P, WorkerText c l) ∧
    (∀ l ∈ Q, TemplateText c l ∨ l = "All jobs finished! Terminating program...")) ∨
  (∃ P m Q, lines = P ++ ("Waiting for the parallel jobs to be finished" ++ m) :: Q ∧
    WorkerText c m ∧ (∀ l ∈ P, WorkerText c l) ∧
    (∀ l ∈ Q, TemplateText c l ∨ l = "All jobs finished! Terminating program..." ∨
      l = ""))

/-- An insertion without its last character. -/
def body (x : String) : String := String.mk x.data.dropLast

/-- The insertions of the main thread in a complete execution, in order: the two of the
"Waiting" statement, the termination line of each element in the order of destruction, and
the "All jobs finished" line. -/
def mainTexts (c : Config) : List String :=
  ["Waiting for the parallel jobs to be finished", "\n"]
    ++ (List.range c.N).map (fun q => terminatedLine ((destroyIdx c q : Nat) + 1))
    ++ ["All jobs finished! Terminating program...\n"]

/-- A schedule of the program in which the first worker prints its first message between
the "Waiting" text of `main` and the line feed of `std::endl`. -/
def gluedSchedule : List (Option Nat) :=
  List.replicate 5 none ++ [some 0, none]
    ++ List.replicate 14 (some 0) ++ List.replicate 15 (some 1)
    ++ List.replicate 15 (some 2) ++ List.replicate 15 (some 3)
    ++ List.replicate 5 none

/-- The state the program ends in under `gluedSchedule`. -/
def gluedState : State := (run program init gluedSchedule).getD init

/-- A schedule of the program in which the first worker prints its second message between
the "Waiting" text of `main` and the line feed of `std::endl`. -/
def gluedSchedule2 : List (Option Nat) :=
  List.replicate 4 none ++ [some 0, some 0, none, some 0, none]
    ++ List.replicate 12 (some 0) ++ List.replicate 15 (some 1)
    ++ List.replicate 15 (some 2) ++ List.replicate 15 (some 3)
    ++ List.replicate 5 none

/-- The state the program ends in under `gluedSchedule2`. -/
def gluedState2 : State := (run program init gluedSchedule2).getD init

/-! ## Text -/

theorem join_concat (l : List String) (x : String) : String.join (l ++ [x]) = String.join l ++ x := by
  apply String.ext
  simp [String.data_join]

theorem join_append (l m : List String) : String.join (l ++ m) = String.join l ++ String.join m := by
  apply String.ext
  simp [String.data_join]

theorem digitVal_digitChar (d : Nat) (h : d < 10) : digitVal (Nat.digitChar d) = d := by
  interval_cases d <;> rfl

theorem isDigit_digitChar (d : Nat) (h : d < 10) : (Nat.digitChar d).isDigit = true := by
  interval_cases d <;> rfl

theorem toDigitsCore_acc (fuel : Nat) : ∀ (n : Nat) (ds : List Char),
    Nat.toDigitsCore 10 fuel n ds = Nat.toDigitsCore 10 fuel n [] ++ ds := by
  induction fuel with
  | zero => intro n ds; simp [Nat.toDigitsCore]
  | succ f ih =>
    intro n ds
    simp only [Nat.toDigitsCore]
    split
    · simp
    · rw [ih (n / 10) (Nat.digitChar (n % 10) :: ds), ih (n / 10) [Nat.digitChar (n % 10)]]
      simp

theorem decode_concat (cs : List Char) (c : Char) : decode (cs ++ [c]) = decode cs * 10 + digitVal c := by
  simp [decode, List.foldl_append]

theorem decode_toDigitsCore (fuel : Nat) : ∀ n, n < fuel →
    decode (Nat.toDigitsCore 10 fuel n []) = n := by
  induction fuel with
  | zero => intro n h; omega
  | succ f ih =>
    intro n h
    simp only [Nat.toDigitsCore]
    split
    · rename_i h0
      have h1 : n % 10 = n := by omega
      have h2 := digitVal_digitChar (n % 10) (by omega)
      rw [h1] at h2 ⊢
      simp [decode, h2]
    · rename_i h0
      rw [toDigitsCore_acc, decode_concat, ih (n / 10) (by omega),
        digitVal_digitChar (n % 10) (by omega)]
      omega

theorem digits_toDigitsCore (fuel : Nat) : ∀ n, ∀ c ∈ Nat.toDigitsCore 10 fuel n [], c.isDigit = true := by
  induction fuel with
  | zero => intro n c h; simp [Nat.toDigitsCore] at h
  | succ f ih =>
    intro n c h
    simp only [Nat.toDigitsCore] at h
    split at h
    · simp at h; subst h; exact isDigit_digitChar _ (by omega)
    · rw [toDigitsCore_acc] at h
      simp at h
      rcases h with h | h
      · exact ih _ _ h
      · subst h; exact isDigit_digitChar _ (by omega)

theorem repr_injective (n m : Nat) (h : Nat.repr n = Nat.repr m) : n = m := by
  have h' : Nat.toDigits 10 n = Nat.toDigits 10 m := by
    have := congrArg String.data h
    simpa [Nat.repr, List.asString] using this
  have hn := decode_toDigitsCore (n + 1) n (by omega)
  have hm := decode_toDigitsCore (m + 1) m (by omega)
  simp only [Nat.toDigits] at h'
  rw [h'] at hn
  omega

theorem repr_isDigit (n : Nat) : ∀ c ∈ (Nat.repr n).data, c.isDigit = true := by
  intro c h
  exact digits_toDigitsCore (n + 1) n c (by simpa [Nat.repr, List.asString, Nat.toDigits] using h)

theorem fmtInt_chars (x : Int) : ∀ c ∈ (fmtInt x).data, c.isDigit = true ∨ c = '-' := by
  intro c h
  cases x with
  | ofNat m => left; exact repr_isDigit m c h
  | negSucc m =>
    simp only [fmtInt, String.data_append] at h
    simp at h
    rcases h with h | h
    · right; exact h
    · left; exact repr_isDigit _ c h

theorem fmtInt_injective (x y : Int) (h : fmtInt x = fmtInt y) : x = y := by
  cases x with
  | ofNat m =>
    cases y with
    | ofNat k => simp only [fmtInt] at h; rw [repr_injective m k h]
    | negSucc k =>
      exfalso
      have h1 : '-' ∈ (fmtInt (Int.negSucc k)).data := by simp [fmtInt]
      rw [← h] at h1
      have := repr_isDigit m '-' h1
      simp [Char.isDigit] at this
  | negSucc m =>
    cases y with
    | ofNat k =>
      exfalso
      have h1 : '-' ∈ (fmtInt (Int.negSucc m)).data := by simp [fmtInt]
      rw [h] at h1
      have := repr_isDigit k '-' h1
      simp [Char.isDigit] at this
    | negSucc k =>
      simp only [fmtInt] at h
      have h2 : (Nat.repr (m + 1)).data = (Nat.repr (k + 1)).data := by
        have := congrArg String.data h
        simpa using this
      have := repr_injective (m + 1) (k + 1) (String.ext h2)
      have : m = k := by omega
      rw [this]

theorem split_unique {α : Type} (c : α) : ∀ (xs ys r r' : List α), c ∉ xs → c ∉ ys →
    xs ++ c :: r = ys ++ c :: r' → xs = ys ∧ r = r' := by
  intro xs
  induction xs with
  | nil =>
    intro ys r r' _ hy h
    cases ys with
    | nil => simpa using h
    | cons y ys => simp at h; simp [h.1] at hy
  | cons x xs ih =>
    intro ys r r' hx hy h
    cases ys with
    | nil => simp at h; simp [h.1] at hx
    | cons y ys =>
      simp at h
      simp at hx hy
      obtain ⟨h1, h2⟩ := ih ys r r' hx.2 hy.2 h.2
      exact ⟨by rw [h.1, h1], h2⟩

theorem paren_not_mem_fmtInt (x : Int) : ')' ∉ (fmtInt x).data := by
  intro h
  rcases fmtInt_chars x _ h with h | h
  · simp [Char.isDigit] at h
  · simp at h

/-! ## The three lines -/

theorem increasingLine_data (id : Int) :
    (increasingLine id).data = (fmtInt id).data ++ ')' :: " increasing a\n".data := by
  simp [increasingLine, PrintAtOnce.shl, PrintAtOnce.new]

theorem increasedLine_data (id v : Int) :
    (increasedLine id v).data
      = (fmtInt id).data ++ ')' :: (" a is increased to ".data ++ ((fmtInt v).data ++ ['\n'])) := by
  simp [increasedLine, PrintAtOnce.shl, PrintAtOnce.new]

theorem terminatedLine_data (id : Int) :
    (terminatedLine id).data = (fmtInt id).data ++ ')' :: " is terminated\n".data := by
  simp [terminatedLine, PrintAtOnce.shl, PrintAtOnce.new]

theorem terminatedLine_injective (x y : Int) (h : terminatedLine x = terminatedLine y) :
    x = y := by
  have h1 := congrArg String.data h
  rw [terminatedLine_data, terminatedLine_data] at h1
  have h2 := split_unique ')' _ _ _ _ (paren_not_mem_fmtInt x) (paren_not_mem_fmtInt y) h1
  exact fmtInt_injective x y (String.ext h2.1)

theorem paren_mem_terminatedLine (id : Int) : ')' ∈ (terminatedLine id).data := by
  rw [terminatedLine_data]; simp

theorem paren_mem_increasingLine (id : Int) : ')' ∈ (increasingLine id).data := by
  rw [increasingLine_data]; simp

theorem paren_mem_increasedLine (id v : Int) : ')' ∈ (increasedLine id v).data := by
  rw [increasedLine_data]; simp

/-! ## PrintAtOnce alone -/

theorem fold_applyCall (calls : List Call) : ∀ (p : PrintAtOnce) (cout : List String),
    ∃ written, (calls.foldl applyCall (p, cout)).2 = cout ++ written ∧
      String.join written ++ (calls.foldl applyCall (p, cout)).1.ss
        = p.ss ++ String.join (appended calls) := by
  induction calls with
  | nil => intro p cout; exact ⟨[], by simp, by simp [appended, String.join]⟩
  | cons cl cs ih =>
    intro p cout
    cases cl with
    | shl x =>
      obtain ⟨wr, h1, h2⟩ := ih (p.shl x) cout
      refine ⟨wr, by simpa [applyCall] using h1, ?_⟩
      simp only [List.foldl_cons, applyCall, appended]
      rw [h2]
      have : String.join (x :: appended cs) = x ++ String.join (appended cs) := by
        apply String.ext; simp [String.data_join]
      rw [this]
      simp [PrintAtOnce.shl, String.append_assoc]
    | flush =>
      obtain ⟨wr, h1, h2⟩ := ih (p.flush cout).1 (p.flush cout).2
      refine ⟨p.ss :: wr, ?_, ?_⟩
      · simp only [List.foldl_cons, applyCall]
        rw [h1]; simp [PrintAtOnce.flush]
      · simp only [List.foldl_cons, applyCall, appended]
        have : String.join (p.ss :: wr) = p.ss ++ String.join wr := by
          apply String.ext; simp [String.data_join]
        rw [this, String.append_assoc, h2]
        simp [PrintAtOnce.flush]

/-! ## Executions: bookkeeping -/

theorem wrapInt_succ (x : Int) : wrapInt (wrapInt x + 1) = wrapInt (x + 1) := by
  unfold wrapInt; omega

theorem wrapInt_of_le (x : Int) (h0 : 0 ≤ x) (h1 : x ≤ INT_MAX) : wrapInt x = x := by
  unfold wrapInt; unfold INT_MAX at h1; omega

theorem eventsOf_concat (x : Option Nat) (tr : List Event) (e : Event) :
    eventsOf x (tr ++ [e]) = if e.thread = x then eventsOf x tr ++ [e] else eventsOf x tr := by
  unfold eventsOf
  by_cases h : e.thread = x <;> simp [List.filter_append, List.filter_cons, h]

theorem eventsOf_concat_self (x : Option Nat) (tr : List Event) (e : Event) (h : e.thread = x) :
    eventsOf x (tr ++ [e]) = eventsOf x tr ++ [e] := by
  rw [eventsOf_concat, if_pos h]

theorem eventsOf_concat_other (x : Option Nat) (tr : List Event) (e : Event)
    (h : e.thread ≠ x) : eventsOf x (tr ++ [e]) = eventsOf x tr := by
  rw [eventsOf_concat, if_neg h]

theorem outs_concat_out (tr : List Event) (t : Option Nat) (x : String) :
    outs (tr ++ [Event.out t x]) = outs tr ++ [x] := by
  simp [outs, Event.text]

theorem outs_concat_inc (tr : List Event) (w : Nat) (v : Int) :
    outs (tr ++ [Event.inc w v]) = outs tr := by
  simp [outs, Event.text]

theorem rets_concat_out (tr : List Event) (t : Option Nat) (x : String) :
    rets (tr ++ [Event.out t x]) = rets tr := by
  simp [rets, Event.value]

theorem rets_concat_inc (tr : List Event) (w : Nat) (v : Int) :
    rets (tr ++ [Event.inc w v]) = rets tr ++ [v] := by
  simp [rets, Event.value]

theorem sum_map_set {α : Type} (f : α → Nat) : ∀ (ts : List α) (w : Nat) (t tn : α),
    ts[w]? = some t → ((ts.set w tn).map f).sum + f t = (ts.map f).sum + f tn := by
  intro ts
  induction ts with
  | nil => intro w t tn h; simp at h
  | cons x xs ih =>
    intro w t tn h
    cases w with
    | zero =>
      simp at h
      subst h
      simp [List.set]
      omega
    | succ k =>
      simp at h
      have := ih k t tn h
      simp only [List.set, List.map_cons, List.sum_cons]
      omega

theorem total_set (ts : List TestThreads) (w : Nat) (t tn : TestThreads) (h : ts[w]? = some t) :
    total (ts.set w tn) + incsOf t = total ts + incsOf tn :=
  sum_map_set incsOf ts w t tn h

theorem workRemaining_set (c : Config) (ts : List TestThreads) (w : Nat) (t tn : TestThreads)
    (h : ts[w]? = some t) :
    workRemaining c (ts.set w tn) + remaining c t = workRemaining c ts + remaining c tn :=
  sum_map_set (remaining c) ts w t tn h

theorem destroyIdx_lt (c : Config) (j : Nat) (h : j < c.N) : destroyIdx c j < c.N := by
  unfold destroyIdx
  split <;> omega

theorem lt_iterations (c : Config) (i : Nat) :
    (i : Int) < c.increase_amount ↔ i < c.iterations := by
  unfold Config.iterations
  omega

theorem finished_eq_false_of_lt (c : Config) (t : TestThreads)
    (h : (t.i : Int) < c.increase_amount) : t.finished c = false := by
  simp [TestThreads.finished, h]

theorem finished_eq_false_of_pc (c : Config) (t : TestThreads) (h : t.pc ≠ Pc.head) :
    t.finished c = false := by
  simp [TestThreads.finished, h]

/-- A step of a background thread leaves what holds of the main thread untouched. -/
theorem mainInv_set (c : Config) (ev : List Event) (ts : List TestThreads) (pc : MainPc)
    (w : Nat) (t tn : TestThreads) (h : MainInv c ev ts pc) (ht : ts[w]? = some t)
    (hf : t.finished c = false) : MainInv c ev (ts.set w tn) pc := by
  have key : ∀ q, (∃ t0, ts[destroyIdx c q]? = some t0 ∧ t0.finished c = true) →
      ∃ t0, (ts.set w tn)[destroyIdx c q]? = some t0 ∧ t0.finished c = true := by
    intro q ⟨t0, h0, hfin⟩
    by_cases hq : w = destroyIdx c q
    · subst hq
      rw [ht] at h0
      injection h0 with h0
      subst h0
      rw [hf] at hfin
      exact absurd hfin (by decide)
    · exact ⟨t0, by rw [List.getElem?_set_ne hq]; exact h0, hfin⟩
  cases pc with
  | construct => exact h
  | endl => exact ⟨by rw [List.length_set]; exact h.1, h.2⟩
  | destroy j =>
    obtain ⟨h1, h2, h3, h4⟩ := h
    exact ⟨by rw [List.length_set]; exact h1, h2, h3, fun q hq => key q (h4 q hq)⟩
  | exit =>
    obtain ⟨h1, h3, h4⟩ := h
    exact ⟨by rw [List.length_set]; exact h1, h3, fun q hq => key q (h4 q hq)⟩

theorem termAfter_concat (c : Config) (tr : List Event) (e : Event) (h : TermAfter c tr)
    (he : ∀ id, e = Event.out none (terminatedLine id) →
      ∃ (w : Nat) (vs : List Int), id = (w : Int) + 1 ∧ w < c.N ∧ vs.length = c.iterations ∧
        eventsOf (some w) tr = vs.flatMap (iteration w id)) :
    TermAfter c (tr ++ [e]) := by
  intro pre post id heq
  rcases List.eq_nil_or_concat post with hp | ⟨L, b, hp⟩
  · subst hp
    have h1 := List.append_inj' heq (by simp)
    have h2 : e = Event.out none (terminatedLine id) := by simpa using h1.2
    rw [← h1.1]
    exact he id h2
  · subst hp
    have heq' : tr ++ [e] = (pre ++ Event.out none (terminatedLine id) :: L) ++ [b] := by
      rw [heq]; simp
    have h1 := List.append_inj' heq' (by simp)
    exact h pre L id h1.1

/-- The invariant after a step of the background thread of element `w` that appends the
event `e` and replaces the element by `tn`. -/
theorem inv_worker (c : Config) (s : State) (w : Nat) (t tn : TestThreads) (e : Event)
    (a : Int) (cout : List String) (h : Inv c s) (ht : s.thrVec[w]? = some t)
    (he : e.thread = some w) (hf : t.finished c = false)
    (hcout : cout = outs (s.trace ++ [e]))
    (ha : a = wrapInt (total (s.thrVec.set w tn)))
    (hr : rets (s.trace ++ [e])
      = (List.range (total (s.thrVec.set w tn))).map (fun (j : Nat) => wrapInt ((j : Int) + 1)))
    (hn : ThreadInv c (eventsOf (some w) s.trace ++ [e]) w tn) :
    Inv c { s with a := a, thrVec := s.thrVec.set w tn, cout := cout,
                   trace := s.trace ++ [e] } := by
  have hw : w < s.thrVec.length := by
    rcases List.getElem?_eq_some.mp ht with ⟨hw, _⟩
    exact hw
  refine ⟨hcout, ?_, ?_, ha, hr, ?_, ?_, ?_, ?_⟩
  rotate_right
  · apply termAfter_concat c s.trace e h.term_after
    intro id hid
    rw [hid] at he
    simp [Event.thread] at he
  · simpa using h.last_id_eq
  · simpa using h.len_le
  · intro w' hw'
    simp only [List.length_set] at hw'
    rw [eventsOf_concat_other _ _ _ (by rw [he]; intro hh; injection hh with hh; omega)]
    exact h.unborn w' hw'
  · intro w' t' ht'
    by_cases hww : w = w'
    · subst hww
      simp only [List.getElem?_set_self hw] at ht'
      injection ht' with ht'
      subst ht'
      simp only [eventsOf_concat_self _ _ _ he]
      exact hn
    · simp only [List.getElem?_set_ne hww] at ht'
      simp only [eventsOf_concat_other _ _ _
        (show e.thread ≠ some w' by rw [he]; intro hh; injection hh with hh; exact hww hh)]
      exact h.thread w' t' ht'
  · simp only [eventsOf_concat_other _ _ _ (show e.thread ≠ none by rw [he]; simp)]
    exact mainInv_set c _ _ _ w t tn h.main ht hf

theorem incsOf_eq (t : TestThreads) :
    incsOf t = t.i + (if t.pc = Pc.incremented then 1 else 0) := rfl

/-- A step of a background thread keeps the invariant. -/
theorem inv_thread_func_increase_a (c : Config) (s s' : State) (w : Nat) (h : Inv c s)
    (hs : thread_func_increase_a c s w = some s') : Inv c s' := by
  unfold thread_func_increase_a at hs
  cases ht : s.thrVec[w]? with
  | none => rw [ht] at hs; simp at hs
  | some t =>
    rw [ht] at hs
    simp only at hs
    obtain ⟨hid, hile, hpc, vs, hlen, hev⟩ := h.thread w t ht
    have hcout := h.cout_eq
    have ha := h.a_eq
    have hr := h.rets_eq
    cases hp : t.pc with
    | head =>
      rw [hp] at hs hev
      simp only at hs hev
      by_cases hlt : (t.i : Int) < c.increase_amount
      · rw [if_pos hlt] at hs
        injection hs with hs
        subst hs
        have htot : ∀ tn : TestThreads, tn.i = t.i → tn.pc = Pc.flushed →
            total (s.thrVec.set w tn) = total s.thrVec := by
          intro tn h1 h2
          have := total_set s.thrVec w t tn ht
          simp only [incsOf_eq, hp, h1, h2] at this
          simp at this
          omega
        apply inv_worker c s w t _
          (Event.out (some w) (increasingLine t.this_id)) _ _ h ht rfl
          (finished_eq_false_of_lt c t hlt)
        · simp [PrintAtOnce.flush, outs_concat_out, hcout, increasingLine]
        · rw [htot]
          · exact ha
          · rfl
          · rfl
        · rw [htot, rets_concat_out]
          · exact hr
          · rfl
          · rfl
        · refine ⟨hid, hile, fun _ => (lt_iterations c t.i).mp hlt, vs, hlen, ?_⟩
          simp only [PrintAtOnce.flush]
          rw [hev]
          exact ⟨rfl, trivial⟩
      · rw [if_neg hlt] at hs
        simp at hs
    | flushed =>
      rw [hp] at hs hev
      simp only at hs hev
      injection hs with hs
      subst hs
      have hK := hpc (by rw [hp]; decide)
      have htot : ∀ tn : TestThreads, tn.i = t.i → tn.pc = Pc.incremented →
          total (s.thrVec.set w tn) = total s.thrVec + 1 := by
        intro tn h1 h2
        have := total_set s.thrVec w t tn ht
        simp only [incsOf_eq, hp, h1, h2] at this
        simp at this
        omega
      apply inv_worker c s w t _ (Event.inc w (wrapInt (s.a + 1))) _ s.cout h ht rfl
        (finished_eq_false_of_pc c t (by rw [hp]; decide))
      · rw [outs_concat_inc]; exact hcout
      · rw [htot]
        · rw [ha]; push_cast; exact (wrapInt_succ _)
        · rfl
        · rfl
      · rw [htot]
        · rw [rets_concat_inc, hr, List.range_succ, List.map_append, ha]
          simp [wrapInt_succ]
        · rfl
        · rfl
      · refine ⟨hid, hile, fun _ => hK, vs, hlen, ?_⟩
        refine ⟨wrapInt (s.a + 1), ?_, ?_⟩
        · rw [hev.1]; simp
        · simp [PrintAtOnce.shl, hev.2, increasedLine, PrintAtOnce.new]
    | incremented =>
      rw [hp] at hs hev
      simp only at hs hev
      injection hs with hs
      subst hs
      have hK := hpc (by rw [hp]; decide)
      obtain ⟨v, hev1, hev2⟩ := hev
      have htot : ∀ tn : TestThreads, tn.i = t.i + 1 → tn.pc = Pc.head →
          total (s.thrVec.set w tn) = total s.thrVec := by
        intro tn h1 h2
        have := total_set s.thrVec w t tn ht
        simp only [incsOf_eq, hp, h1, h2] at this
        simp at this
        omega
      apply inv_worker c s w t _ (Event.out (some w) t.msg.ss) _ _ h ht rfl
        (finished_eq_false_of_pc c t (by rw [hp]; decide))
      · simp [PrintAtOnce.flush, outs_concat_out, hcout]
      · rw [htot]
        · exact ha
        · rfl
        · rfl
      · rw [htot, rets_concat_out]
        · exact hr
        · rfl
        · rfl
      · refine ⟨hid, by simp; omega, fun hh => absurd rfl hh, vs ++ [v], by simp [hlen], ?_⟩
        simp only [PrintAtOnce.flush]
        rw [hev1, hev2]
        simp [iteration]

/-- The invariant after a step of the main thread that inserts `x` on the console. -/
theorem inv_main_out (c : Config) (s : State) (x : String) (pc : MainPc) (h : Inv c s)
    (hm : MainInv c (eventsOf none s.trace ++ [Event.out none x]) s.thrVec pc)
    (hx : ∀ id, x = terminatedLine id →
      ∃ (w : Nat) (vs : List Int), id = (w : Int) + 1 ∧ w < c.N ∧ vs.length = c.iterations ∧
        eventsOf (some w) s.trace = vs.flatMap (iteration w id)) :
    Inv c { s with pc := pc, cout := s.cout ++ [x],
                   trace := s.trace ++ [Event.out none x] } := by
  refine ⟨?_, h.last_id_eq, h.len_le, h.a_eq, ?_, ?_, ?_, ?_, ?_⟩
  rotate_right
  · apply termAfter_concat c s.trace _ h.term_after
    intro id hid
    injection hid with _ hid
    exact hx id hid
  · simp only [outs_concat_out, h.cout_eq]
  · simp only [rets_concat_out]; exact h.rets_eq
  · intro w hw
    show eventsOf (some w) (s.trace ++ [Event.out none x]) = []
    rw [eventsOf_concat_other _ _ _ (by simp [Event.thread])]
    exact h.unborn w hw
  · intro w t ht
    show ThreadInv c (eventsOf (some w) (s.trace ++ [Event.out none x])) w t
    rw [eventsOf_concat_other _ _ _ (by simp [Event.thread])]
    exact h.thread w t ht
  · show MainInv c (eventsOf none (s.trace ++ [Event.out none x])) s.thrVec pc
    rw [eventsOf_concat_self none s.trace (Event.out none x) rfl]
    exact hm

theorem total_concat (ts : List TestThreads) (t : TestThreads) :
    total (ts ++ [t]) = total ts + incsOf t := by
  simp [total]

/-- A step of the main thread keeps the invariant. -/
theorem inv_mainStep (c : Config) (s s' : State) (h : Inv c s)
    (hs : mainStep c s = some s') : Inv c s' := by
  unfold mainStep at hs
  have hmain := h.main
  cases hp : s.pc with
  | construct =>
    rw [hp] at hs hmain
    simp only at hs
    by_cases hlen : s.thrVec.length < c.N
    · rw [if_pos hlen] at hs
      by_cases hmax : s.last_id < INT_MAX
      · rw [if_pos hmax] at hs
        injection hs with hs
        subst hs
        have htot : ∀ t0 : TestThreads, t0.i = 0 → t0.pc = Pc.head →
            total (s.thrVec ++ [t0]) = total s.thrVec := by
          intro t0 h1 h2
          rw [total_concat]; simp [incsOf, h1, h2]
        refine ⟨h.cout_eq, ?_, ?_, ?_, ?_, ?_, ?_, ?_, h.term_after⟩
        · simp [h.last_id_eq]
        · simp; omega
        · show s.a = wrapInt (total (s.thrVec ++ [_]))
          rw [htot _ rfl rfl]; exact h.a_eq
        · show rets s.trace = List.map _ (List.range (total (s.thrVec ++ [_])))
          rw [htot _ rfl rfl]; exact h.rets_eq
        · intro w hw
          simp at hw
          exact h.unborn w (by omega)
        · intro w t ht
          by_cases hw : w < s.thrVec.length
          · rw [List.getElem?_append_left hw] at ht
            exact h.thread w t ht
          · have hw' : w = s.thrVec.length := by
              by_contra hne
              rw [List.getElem?_eq_none (by simp; omega)] at ht
              exact absurd ht (by simp)
            subst hw'
            rw [List.getElem?_concat_length] at ht
            injection ht with ht
            subst ht
            refine ⟨by simp [h.last_id_eq], by simp, fun hh => absurd rfl hh, [], rfl, ?_⟩
            simp only [List.flatMap_nil]
            exact h.unborn _ (Nat.le_refl _)
        · exact hmain
      · rw [if_neg hmax] at hs; simp at hs
    · rw [if_neg hlen] at hs
      injection hs with hs
      subst hs
      have hN : s.thrVec.length = c.N := by have := h.len_le; omega
      apply inv_main_out c s _ MainPc.endl h
      · simp only [MainInv] at hmain ⊢
        rw [hmain]
        exact ⟨hN, rfl⟩
      · intro id hid
        have := paren_mem_terminatedLine id
        rw [← hid] at this
        exact absurd this (by decide)
  | endl =>
    rw [hp] at hs hmain
    simp only at hs
    injection hs with hs
    subst hs
    apply inv_main_out c s _ (MainPc.destroy 0) h
    · simp only [MainInv] at hmain ⊢
      rw [hmain.2]
      exact ⟨hmain.1, Nat.zero_le _, by simp, fun q hq => absurd hq (by omega)⟩
    · intro id hid
      have := paren_mem_terminatedLine id
      rw [← hid] at this
      exact absurd this (by decide)
  | destroy j =>
    rw [hp] at hs hmain
    simp only at hs
    obtain ⟨h1, h2, h3, h4⟩ := hmain
    by_cases hj : j < c.N
    · rw [if_pos hj] at hs
      cases ht : s.thrVec[destroyIdx c j]? with
      | none => rw [ht] at hs; simp at hs
      | some t =>
        rw [ht] at hs
        simp only at hs
        by_cases hfin : t.finished c = true
        · rw [if_pos hfin] at hs
          injection hs with hs
          subst hs
          obtain ⟨hid, hile, _, vs, hvs, hev⟩ := h.thread _ t ht
          apply inv_main_out c s _ (MainPc.destroy (j + 1)) h
          · simp only [MainInv]
            refine ⟨h1, by omega, ?_, ?_⟩
            · rw [h3, List.range_succ, List.map_append]
              simp [terminatedEvent, terminatedLine, hid]
            · intro q hq
              by_cases hqj : q = j
              · subst hqj; exact ⟨t, ht, hfin⟩
              · exact h4 q (by omega)
          · intro id hid'
            have hid2 : id = t.this_id := (terminatedLine_injective _ _ hid').symm
            simp only [TestThreads.finished, Bool.and_eq_true, beq_iff_eq, Bool.not_eq_true',
              decide_eq_false_iff_not] at hfin
            rw [hfin.1] at hev
            have hK : t.i = c.iterations := by
              have := (lt_iterations c t.i).not.mp hfin.2
              omega
            exact ⟨destroyIdx c j, vs, by rw [hid2, hid], destroyIdx_lt c j hj,
              by rw [hvs, hK], by rw [hid2]; exact hev⟩
        · rw [if_neg hfin] at hs; simp at hs
    · rw [if_neg hj] at hs
      injection hs with hs
      subst hs
      have hjN : j = c.N := by omega
      subst hjN
      apply inv_main_out c s _ MainPc.exit h
      · simp only [MainInv]
        exact ⟨h1, by rw [h3], h4⟩
      · intro id hid
        have := paren_mem_terminatedLine id
        rw [← hid] at this
        exact absurd this (by decide)
  | exit =>
    rw [hp] at hs
    simp at hs

/-- Any step keeps the invariant. -/
theorem inv_step (c : Config) (s s' : State) (t : Option Nat) (h : Inv c s)
    (hs : step c s t = some s') : Inv c s' := by
  cases t with
  | none => exact inv_mainStep c s s' h hs
  | some w => exact inv_thread_func_increase_a c s s' w h hs

theorem inv_init (c : Config) : Inv c init := by
  refine ⟨rfl, rfl, Nat.zero_le _, rfl, rfl, fun _ _ => rfl, ?_, rfl, ?_⟩
  · intro w t ht
    simp [init] at ht
  · intro pre post id heq
    simp [init] at heq

/-- Running a schedule keeps the invariant. -/
theorem inv_run (c : Config) (sched : List (Option Nat)) : ∀ (s s' : State), Inv c s →
    run c s sched = some s' → Inv c s' := by
  induction sched with
  | nil =>
    intro s s' h hs
    simp [run] at hs
    subst hs
    exact h
  | cons t ts ih =>
    intro s s' h hs
    simp only [run] at hs
    cases h1 : step c s t with
    | none => rw [h1] at hs; simp at hs
    | some s1 =>
      rw [h1] at hs
      exact ih s1 s' (inv_step c s s1 t h h1) hs

/-- Every state an execution of the program reaches satisfies the invariant. -/
theorem inv_reachable (c : Config) (sched : List (Option Nat)) (s : State)
    (hs : run c init sched = some s) : Inv c s :=
  inv_run c sched init s (inv_init c) hs

/-! ## Executions: every execution can be completed -/

theorem run_append (c : Config) (l1 l2 : List (Option Nat)) : ∀ s : State,
    run c s (l1 ++ l2) = (run c s l1).bind (fun s' => run c s' l2) := by
  induction l1 with
  | nil => intro s; simp [run]
  | cons t ts ih =>
    intro s
    simp only [List.cons_append, run]
    cases step c s t with
    | none => simp
    | some s1 => simp [ih s1]

theorem run_cons_of_step (c : Config) (s s1 s' : State) (t : Option Nat)
    (sched : List (Option Nat)) (h1 : step c s t = some s1) (h2 : run c s1 sched = some s') :
    run c s (t :: sched) = some s' := by
  simp [run, h1, h2]

theorem remaining_eq (c : Config) (t : TestThreads) :
    remaining c t = 3 * (c.iterations - t.i) - (match t.pc with
      | Pc.head => 0
      | Pc.flushed => 1
      | Pc.incremented => 2) := rfl

/-- A background thread that has not returned can always make a step, and the step brings
it nearer to its return. -/
theorem thread_func_increase_a_progress (c : Config) (s : State) (w : Nat) (t : TestThreads)
    (h : Inv c s) (ht : s.thrVec[w]? = some t) (hf : t.finished c = false) :
    ∃ s', thread_func_increase_a c s w = some s' ∧ s'.pc = s.pc ∧
      s'.thrVec.length = s.thrVec.length ∧
      workRemaining c s'.thrVec + 1 = workRemaining c s.thrVec := by
  obtain ⟨_, hile, hpc, _⟩ := h.thread w t ht
  unfold thread_func_increase_a
  rw [ht]
  simp only
  have key : ∀ tn : TestThreads, remaining c tn + 1 = remaining c t →
      workRemaining c (s.thrVec.set w tn) + 1 = workRemaining c s.thrVec := by
    intro tn hrem
    have := workRemaining_set c s.thrVec w t tn ht
    omega
  cases hp : t.pc with
  | head =>
    have hlt : (t.i : Int) < c.increase_amount := by
      simp [TestThreads.finished, hp] at hf
      exact hf
    have hlt' := (lt_iterations c t.i).mp hlt
    simp only [if_pos hlt]
    refine ⟨_, rfl, rfl, by simp, ?_⟩
    apply key
    simp only [remaining_eq, hp]
    omega
  | flushed =>
    have hK := hpc (by rw [hp]; decide)
    refine ⟨_, rfl, rfl, by simp, ?_⟩
    apply key
    simp only [remaining_eq, hp]
    omega
  | incremented =>
    have hK := hpc (by rw [hp]; decide)
    refine ⟨_, rfl, rfl, by simp, ?_⟩
    apply key
    simp only [remaining_eq, hp]
    omega

/-- Once the vector is built, the execution can be run to the end of `main`. -/
theorem exists_completion_built (c : Config) : ∀ (m : Nat) (s : State), Inv c s →
    s.thrVec.length = c.N → workRemaining c s.thrVec + mainRemaining c s.pc ≤ m →
    ∃ sched s', run c s sched = some s' ∧ s'.pc = MainPc.exit := by
  intro m
  induction m with
  | zero =>
    intro s _ _ hm
    refine ⟨[], s, rfl, ?_⟩
    cases hp : s.pc with
    | exit => rfl
    | construct => rw [hp] at hm; simp [mainRemaining] at hm
    | endl => rw [hp] at hm; simp [mainRemaining] at hm
    | destroy j => rw [hp] at hm; simp [mainRemaining] at hm
  | succ m ih =>
    intro s h hlen hm
    have viaMain : ∀ s1, mainStep c s = some s1 → s1.thrVec = s.thrVec →
        mainRemaining c s1.pc + 1 = mainRemaining c s.pc →
        ∃ sched s', run c s sched = some s' ∧ s'.pc = MainPc.exit := by
      intro s1 hs1 hthr hrem
      obtain ⟨sched, s', hrun, hex⟩ := ih s1 (inv_mainStep c s s1 h hs1)
        (by rw [hthr]; exact hlen) (by rw [hthr]; omega)
      exact ⟨none :: sched, s', run_cons_of_step c s s1 s' none sched hs1 hrun, hex⟩
    cases hp : s.pc with
    | exit => exact ⟨[], s, rfl, hp⟩
    | construct =>
      apply viaMain { s with
        pc := MainPc.endl
        cout := s.cout ++ ["Waiting for the parallel jobs to be finished"]
        trace := s.trace ++ [Event.out none "Waiting for the parallel jobs to be finished"] }
      · unfold mainStep; rw [hp]; simp [hlen]
      · rfl
      · rw [hp]; simp [mainRemaining]
    | endl =>
      apply viaMain { s with
        pc := MainPc.destroy 0
        cout := s.cout ++ ["\n"]
        trace := s.trace ++ [Event.out none "\n"] }
      · unfold mainStep; rw [hp]
      · rfl
      · rw [hp]; simp [mainRemaining]
    | destroy j =>
      by_cases hj : j < c.N
      · have hd := destroyIdx_lt c j hj
        have hdl : destroyIdx c j < s.thrVec.length := by omega
        have ht : s.thrVec[destroyIdx c j]? = some (s.thrVec[destroyIdx c j]) :=
          List.getElem?_eq_getElem hdl
        generalize s.thrVec[destroyIdx c j] = t at ht
        by_cases hfin : t.finished c = true
        · apply viaMain { s with
            pc := MainPc.destroy (j + 1)
            cout := ((PrintAtOnce.new.shl (fmtInt t.this_id)).shl ") is terminated\n").dtor s.cout
            trace := s.trace ++ [Event.out none
              ((PrintAtOnce.new.shl (fmtInt t.this_id)).shl ") is terminated\n").ss] }
          · unfold mainStep; rw [hp]; simp [hj, ht, hfin]
          · rfl
          · rw [hp]; simp only [mainRemaining]; omega
        · have hfin' : t.finished c = false := by simpa using hfin
          obtain ⟨s1, hs1, hpc1, hlen1, hrem1⟩ := thread_func_increase_a_progress c s _ t h ht hfin'
          obtain ⟨sched, s', hrun, hex⟩ := ih s1 (inv_thread_func_increase_a c s s1 _ h hs1)
            (by rw [hlen1]; exact hlen) (by rw [hpc1]; omega)
          exact ⟨some (destroyIdx c j) :: sched, s',
            run_cons_of_step c s s1 s' _ sched hs1 hrun, hex⟩
      · apply viaMain { s with
          pc := MainPc.exit
          cout := s.cout ++ ["All jobs finished! Terminating program...\n"]
          trace := s.trace ++ [Event.out none "All jobs finished! Terminating program...\n"] }
        · unfold mainStep; rw [hp]; simp [hj]
        · rfl
        · rw [hp]; simp only [mainRemaining]; omega

/-- While the vector is being built, the main thread can finish building it. -/
theorem exists_built (c : Config) (hN : (c.N : Int) ≤ INT_MAX) : ∀ (d : Nat) (s : State),
    Inv c s → s.pc = MainPc.construct → c.N - s.thrVec.length = d →
    ∃ sched s', run c s sched = some s' ∧ Inv c s' ∧ s'.thrVec.length = c.N := by
  intro d
  induction d with
  | zero =>
    intro s h _ hd
    exact ⟨[], s, rfl, h, by have := h.len_le; omega⟩
  | succ d ih =>
    intro s h hp hd
    have hlen : s.thrVec.length < c.N := by omega
    have hmax : s.last_id < INT_MAX := by rw [h.last_id_eq]; omega
    have hs1 : mainStep c s = some { s with
        last_id := s.last_id + 1
        thrVec := s.thrVec ++ [TestThreads.mk (s.last_id + 1) 0 Pc.head PrintAtOnce.new] } := by
      unfold mainStep; rw [hp]; simp [hlen, hmax]
    obtain ⟨sched, s', hrun, hinv, hfull⟩ := ih _ (inv_mainStep c s _ h hs1) hp
      (by simp; omega)
    exact ⟨none :: sched, s', run_cons_of_step c s _ s' none sched hs1 hrun, hinv, hfull⟩

/-- From every state that satisfies the invariant the execution can be run to the end of
`main`, provided the identities fit in an `int`. -/
theorem exists_completion (c : Config) (hN : (c.N : Int) ≤ INT_MAX) (s : State)
    (h : Inv c s) : ∃ sched s', run c s sched = some s' ∧ s'.pc = MainPc.exit := by
  have built : ∀ s0, Inv c s0 → s0.thrVec.length = c.N →
      ∃ sched s', run c s0 sched = some s' ∧ s'.pc = MainPc.exit :=
    fun s0 h0 hl => exists_completion_built c _ s0 h0 hl (Nat.le_refl _)
  have hmain := h.main
  cases hp : s.pc with
  | construct =>
    obtain ⟨sched1, s1, hrun1, hinv1, hfull1⟩ := exists_built c hN _ s h hp rfl
    obtain ⟨sched2, s2, hrun2, hex⟩ := built s1 hinv1 hfull1
    exact ⟨sched1 ++ sched2, s2, by rw [run_append, hrun1]; exact hrun2, hex⟩
  | endl => rw [hp] at hmain; exact built s h hmain.1
  | destroy j => rw [hp] at hmain; exact built s h hmain.1
  | exit => exact ⟨[], s, rfl, hp⟩

/-- Every execution of the program can be continued to the end of `main`, provided the
identities fit in an `int`: no interleaving blocks a thread for ever. -/
theorem execution_completes (c : Config) (hN : (c.N : Int) ≤ INT_MAX)
    (sched : List (Option Nat)) (s : State) (hs : run c init sched = some s) :
    ∃ rest s', run c init (sched ++ rest) = some s' ∧ s'.pc = MainPc.exit := by
  obtain ⟨rest, s', hrun, hex⟩ := exists_completion c hN s (inv_reachable c sched s hs)
  exact ⟨rest, s', by rw [run_append, hs]; exact hrun, hex⟩

/-! ## The buffered writer -/

/-- C3: for every sequence of `operator<<` and `flush` calls on one `PrintAtOnce`, followed
by its destruction, the console afterwards is the console before followed by what the
instance wrote, and the text the instance wrote is the concatenation of all appended values
in order: nothing buffered is lost and nothing is written twice, whether or not `flush` was
called before the destructor ran. -/
theorem lifetime_writes_appended (calls : List Call) (cout : List String) :
    ∃ written, lifetime calls cout = cout ++ written ∧
      consoleText written = String.join (appended calls) ∧
      consoleText (lifetime calls cout) = consoleText cout ++ String.join (appended calls) := by
  obtain ⟨wr, h1, h2⟩ := fold_applyCall calls PrintAtOnce.new cout
  have h3 : consoleText (wr ++ [(calls.foldl applyCall (PrintAtOnce.new, cout)).1.ss])
      = String.join (appended calls) := by
    unfold consoleText
    rw [join_concat, h2]
    simp [PrintAtOnce.new]
  refine ⟨wr ++ [(calls.foldl applyCall (PrintAtOnce.new, cout)).1.ss], ?_, h3, ?_⟩
  · simp [lifetime, PrintAtOnce.dtor, PrintAtOnce.flush, h1]
  · have : lifetime calls cout
        = cout ++ (wr ++ [(calls.foldl applyCall (PrintAtOnce.new, cout)).1.ss]) := by
      simp [lifetime, PrintAtOnce.dtor, PrintAtOnce.flush, h1]
    rw [this]
    unfold consoleText at h3 ⊢
    rw [join_append, h3]

/-- C4: `flush` on an empty buffer adds no text to the console and leaves the buffer empty
(it is a total function, so it cannot fail); and for every text `t`, after one append of `t`
the first `flush` writes `t` and leaves the buffer empty, and a second `flush` right after
it adds no text, so `t` is on the console exactly once. -/
theorem flush_idempotent (t : String) (cout : List String) :
    consoleText (PrintAtOnce.new.flush cout).2 = consoleText cout ∧
    (PrintAtOnce.new.flush cout).1 = PrintAtOnce.new ∧
    consoleText ((PrintAtOnce.new.shl t).flush cout).2 = consoleText cout ++ t ∧
    ((PrintAtOnce.new.shl t).flush cout).1 = PrintAtOnce.new ∧
    consoleText ((((PrintAtOnce.new.shl t).flush cout).1).flush
        ((PrintAtOnce.new.shl t).flush cout).2).2 = consoleText cout ++ t ∧
    ((((PrintAtOnce.new.shl t).flush cout).1).flush
        ((PrintAtOnce.new.shl t).flush cout).2).1 = PrintAtOnce.new := by
  simp [PrintAtOnce.flush, PrintAtOnce.new, PrintAtOnce.shl, consoleText, join_concat]
  apply String.ext
  simp [String.data_join]

/-! ## What the invariant gives -/

theorem finished_iff (c : Config) (t : TestThreads) :
    t.finished c = true ↔ t.pc = Pc.head ∧ c.iterations ≤ t.i := by
  have := lt_iterations c t.i
  simp only [TestThreads.finished, Bool.and_eq_true, beq_iff_eq, Bool.not_eq_true',
    decide_eq_false_iff_not]
  constructor
  · intro ⟨h1, h2⟩
    exact ⟨h1, by rw [this] at h2; omega⟩
  · intro ⟨h1, h2⟩
    exact ⟨h1, by rw [this]; omega⟩

theorem destroyIdx_surj (c : Config) (w : Nat) (h : w < c.N) :
    ∃ q, q < c.N ∧ destroyIdx c q = w := by
  unfold destroyIdx
  cases c.reverseDestroy with
  | false => exact ⟨w, h, by simp⟩
  | true => exact ⟨c.N - 1 - w, by omega, by simp; omega⟩

/-- When `main` has returned, all background threads have returned. -/
theorem allFinished_of_exit (c : Config) (s : State) (h : Inv c s)
    (hex : s.pc = MainPc.exit) : AllFinished c s := by
  have hmain := h.main
  rw [hex] at hmain
  obtain ⟨h1, _, h3⟩ := hmain
  refine ⟨h1, ?_⟩
  intro t ht
  obtain ⟨w, hw⟩ := List.getElem?_of_mem ht
  have hwl : w < s.thrVec.length := (List.getElem?_eq_some.mp hw).1
  obtain ⟨q, hq, hqw⟩ := destroyIdx_surj c w (by omega)
  obtain ⟨t0, ht0, hfin⟩ := h3 q hq
  rw [hqw, hw] at ht0
  injection ht0 with ht0
  rw [ht0]
  exact hfin

theorem sum_map_const {α : Type} (f : α → Nat) (k : Nat) : ∀ ts : List α,
    (∀ t ∈ ts, f t = k) → (ts.map f).sum = ts.length * k := by
  intro ts
  induction ts with
  | nil => intro _; simp
  | cons x xs ih =>
    intro h
    simp only [List.map_cons, List.sum_cons, List.length_cons]
    rw [ih (fun t ht => h t (List.mem_cons_of_mem _ ht)), h x (List.mem_cons_self _ _)]
    rw [Nat.add_mul]; omega

theorem sum_map_le {α : Type} (f : α → Nat) (k : Nat) : ∀ ts : List α,
    (∀ t ∈ ts, f t ≤ k) → (ts.map f).sum ≤ ts.length * k := by
  intro ts
  induction ts with
  | nil => intro _; simp
  | cons x xs ih =>
    intro h
    simp only [List.map_cons, List.sum_cons, List.length_cons]
    have h1 := ih (fun t ht => h t (List.mem_cons_of_mem _ ht))
    have h2 := h x (List.mem_cons_self _ _)
    rw [Nat.add_mul]; omega

/-- The number of increments made when all background threads have returned. -/
theorem total_of_allFinished (c : Config) (s : State) (h : Inv c s)
    (hdone : AllFinished c s) : total s.thrVec = c.N * c.iterations := by
  rw [← hdone.1]
  apply sum_map_const
  intro t ht
  obtain ⟨w, hw⟩ := List.getElem?_of_mem ht
  obtain ⟨_, hile, _, _⟩ := h.thread w t hw
  have hf := (finished_iff c t).mp (hdone.2 t ht)
  simp only [incsOf, hf.1]
  simp
  omega

/-- The number of increments made so far never exceeds `N * K`. -/
theorem total_le (c : Config) (s : State) (h : Inv c s) :
    total s.thrVec ≤ c.N * c.iterations := by
  have h1 : total s.thrVec ≤ s.thrVec.length * c.iterations := by
    apply sum_map_le
    intro t ht
    obtain ⟨w, hw⟩ := List.getElem?_of_mem ht
    obtain ⟨_, hile, hpc, _⟩ := h.thread w t hw
    simp only [incsOf]
    by_cases hp : t.pc = Pc.incremented
    · have := hpc (by rw [hp]; decide)
      simp [hp]; omega
    · simp [hp]; exact hile
  exact Nat.le_trans h1 (Nat.mul_le_mul_right _ h.len_le)

theorem mem_eventsOf (x : Option Nat) (tr : List Event) (e : Event) :
    e ∈ eventsOf x tr ↔ e ∈ tr ∧ e.thread = x := by
  simp [eventsOf]

theorem mem_flatMap_iteration (w : Nat) (id : Int) (vs : List Int) (e : Event)
    (h : e ∈ vs.flatMap (iteration w id)) :
    e = Event.out (some w) (increasingLine id) ∨
      ∃ v, e = Event.inc w v ∨ e = Event.out (some w) (increasedLine id v) := by
  simp only [List.mem_flatMap, iteration, List.mem_cons, List.mem_singleton,
    List.not_mem_nil, or_false] at h
  obtain ⟨v, _, h | h | h⟩ := h
  · exact Or.inl h
  · exact Or.inr ⟨v, Or.inl h⟩
  · exact Or.inr ⟨v, Or.inr h⟩

/-- Every event of a background thread is one of the three events of an iteration of an
existing element, with that element's identity. -/
theorem worker_event_shape (c : Config) (s : State) (h : Inv c s) (e : Event) (w : Nat)
    (he : e ∈ s.trace) (hw : e.thread = some w) :
    w < c.N ∧ (e = Event.out (some w) (increasingLine ((w : Int) + 1)) ∨
      ∃ v, e = Event.inc w v ∨ e = Event.out (some w) (increasedLine ((w : Int) + 1) v)) := by
  have hmem : e ∈ eventsOf (some w) s.trace := (mem_eventsOf _ _ _).mpr ⟨he, hw⟩
  by_cases hlen : s.thrVec.length ≤ w
  · rw [h.unborn w hlen] at hmem
    exact absurd hmem (List.not_mem_nil _)
  · have hwl : w < s.thrVec.length := by omega
    have ht : s.thrVec[w]? = some (s.thrVec[w]) := List.getElem?_eq_getElem hwl
    generalize s.thrVec[w] = t at ht
    obtain ⟨hid, _, _, vs, _, hev⟩ := h.thread w t ht
    refine ⟨by have := h.len_le; omega, ?_⟩
    rw [← hid]
    cases hp : t.pc with
    | head =>
      rw [hp] at hev
      simp only at hev
      rw [hev] at hmem
      exact mem_flatMap_iteration w _ vs e hmem
    | flushed =>
      rw [hp] at hev
      simp only at hev
      rw [hev.1, List.mem_append] at hmem
      rcases hmem with hmem | hmem
      · exact mem_flatMap_iteration w _ vs e hmem
      · exact Or.inl (by simpa using hmem)
    | incremented =>
      rw [hp] at hev
      simp only at hev
      obtain ⟨v, hev1, _⟩ := hev
      rw [hev1, List.mem_append] at hmem
      rcases hmem with hmem | hmem
      · exact mem_flatMap_iteration w _ vs e hmem
      · simp only [List.mem_cons, List.mem_singleton, List.not_mem_nil, or_false] at hmem
        rcases hmem with hmem | hmem
        · exact Or.inl hmem
        · exact Or.inr ⟨v, Or.inl hmem⟩

/-- Every event of the main thread is one of its three fixed insertions or the insertion of
the destructor of an element. -/
theorem main_event_shape (c : Config) (s : State) (h : Inv c s) (e : Event)
    (he : e ∈ s.trace) (hm : e.thread = none) :
    e = Event.out none "Waiting for the parallel jobs to be finished" ∨
      e = Event.out none "\n" ∨
      e = Event.out none "All jobs finished! Terminating program...\n" ∨
      ∃ q, q < c.N ∧ e = terminatedEvent c q := by
  have hmem : e ∈ eventsOf none s.trace := (mem_eventsOf _ _ _).mpr ⟨he, hm⟩
  have hmain := h.main
  cases hp : s.pc with
  | construct =>
    rw [hp] at hmain
    simp only [MainInv] at hmain
    rw [hmain] at hmem
    exact absurd hmem (List.not_mem_nil _)
  | endl =>
    rw [hp] at hmain
    simp only [MainInv] at hmain
    rw [hmain.2] at hmem
    exact Or.inl (by simpa using hmem)
  | destroy j =>
    rw [hp] at hmain
    obtain ⟨_, hj, h3, _⟩ := hmain
    rw [h3] at hmem
    simp only [List.mem_append, List.mem_cons, List.mem_singleton, List.not_mem_nil, or_false,
      List.mem_map, List.mem_range] at hmem
    rcases hmem with (hmem | hmem) | ⟨q, hq, hqe⟩
    · exact Or.inl hmem
    · exact Or.inr (Or.inl hmem)
    · exact Or.inr (Or.inr (Or.inr ⟨q, by omega, hqe.symm⟩))
  | exit =>
    rw [hp] at hmain
    obtain ⟨_, h3, _⟩ := hmain
    rw [h3] at hmem
    simp only [List.mem_append, List.mem_cons, List.mem_singleton, List.not_mem_nil, or_false,
      List.mem_map, List.mem_range] at hmem
    rcases hmem with ((hmem | hmem) | ⟨q, hq, hqe⟩) | hmem
    · exact Or.inl hmem
    · exact Or.inr (Or.inl hmem)
    · exact Or.inr (Or.inr (Or.inr ⟨q, hq, hqe.symm⟩))
    · exact Or.inr (Or.inr (Or.inl hmem))

/-! ## The program on concrete inputs -/

set_option maxRecDepth 1000000 in
theorem run_seqSchedule : run program init (seqSchedule 4 5) = some finalState := by decide

set_option maxRecDepth 1000000 in
theorem allFinished_finalState : AllFinished program finalState := by
  unfold AllFinished; decide

set_option maxRecDepth 1000000 in
theorem exit_finalState : finalState.pc = MainPc.exit := by decide

/-- The program with `2^31` increments has executions that run to the end of `main`; in
each the counter ends at `INT_MIN` and the last increment returns `INT_MIN`. -/
theorem overflow_execution :
    ∃ sched s, run overflowProgram init sched = some s ∧ AllFinished overflowProgram s ∧
      s.a = -2147483648 ∧ (-2147483648 : Int) ∈ rets s.trace := by
  obtain ⟨sched, s, hrun, hex⟩ :=
    exists_completion overflowProgram (by decide) init (inv_init overflowProgram)
  have hinv := inv_reachable overflowProgram sched s hrun
  have hdone := allFinished_of_exit overflowProgram s hinv hex
  have htot := total_of_allFinished overflowProgram s hinv hdone
  have hN : overflowProgram.N * overflowProgram.iterations = 2147483648 := by decide
  rw [hN] at htot
  refine ⟨sched, s, hrun, hdone, ?_, ?_⟩
  · rw [hinv.a_eq, htot]; decide
  · rw [hinv.rets_eq, htot]
    exact List.mem_map.mpr ⟨2147483647, List.mem_range.mpr (by omega), by decide⟩

/-! ## The counter -/

/-- The counter after all loops have completed, for every `N` and `K`: `N * K` wrapped into
the `int`. -/
theorem counter_final_wrapped (c : Config) (sched : List (Option Nat)) (s : State)
    (hs : run c init sched = some s) (hdone : AllFinished c s) :
    s.a = wrapInt ((c.N : Int) * (c.iterations : Int)) := by
  have hinv := inv_reachable c sched s hs
  rw [hinv.a_eq, total_of_allFinished c s hinv hdone]
  push_cast
  rfl

/-- C1, as stated, fails: with `N = 4` workers and `K = 2^29` repetitions there is an
execution in which all loops have completed and the counter is `-2147483648`, not `N * K`. -/
theorem counter_final_overflow :
    ∃ sched s, run overflowProgram init sched = some s ∧ AllFinished overflowProgram s ∧
      s.a = -2147483648 ∧
      s.a ≠ (overflowProgram.N : Int) * (overflowProgram.iterations : Int) := by
  obtain ⟨sched, s, hrun, hdone, ha, _⟩ := overflow_execution
  refine ⟨sched, s, hrun, hdone, ha, ?_⟩
  rw [ha]
  decide

/-- C1, amended: for every number of workers `N` and repetition count `K` whose product
fits in the `int` counter, and for every interleaving, once all workers' loops have
completed the counter equals exactly `N * K`. -/
theorem counter_final (c : Config) (sched : List (Option Nat)) (s : State)
    (hs : run c init sched = some s) (hdone : AllFinished c s)
    (hfit : (c.N : Int) * (c.iterations : Int) ≤ INT_MAX) :
    s.a = (c.N : Int) * (c.iterations : Int) := by
  rw [counter_final_wrapped c sched s hs hdone]
  exact wrapInt_of_le _ (by positivity) hfit

theorem counter_final_witness :
    run program init (seqSchedule 4 5) = some finalState ∧ AllFinished program finalState ∧
      (program.N : Int) * (program.iterations : Int) ≤ INT_MAX ∧ finalState.a = 20 :=
  ⟨run_seqSchedule, allFinished_finalState, by decide,
    counter_final program (seqSchedule 4 5) finalState run_seqSchedule
      allFinished_finalState (by decide)⟩

/-- C2, as stated, fails: with `N = 4` workers and `K = 2^29` repetitions there is an
execution in which an increment returns `-2147483648`, which is none of `1 .. N * K`. -/
theorem increments_overflow :
    ∃ sched s, run overflowProgram init sched = some s ∧ AllFinished overflowProgram s ∧
      ∃ v ∈ rets s.trace, ¬ (1 ≤ v ∧
        v ≤ (overflowProgram.N : Int) * (overflowProgram.iterations : Int)) := by
  obtain ⟨sched, s, hrun, hdone, _, hmem⟩ := overflow_execution
  exact ⟨sched, s, hrun, hdone, -2147483648, hmem, by decide⟩

/-- C2, amended: when `N * K` fits in the `int` counter, then in every execution the `n`
increments made so far have returned, in the order they were made, exactly `1, 2, .., n`
and the counter is `n`: each increment added one and returned the new value, and no
two returned the same value. Once all loops have completed `n` is `N * K`. -/
theorem increments_return (c : Config) (sched : List (Option Nat)) (s : State)
    (hs : run c init sched = some s)
    (hfit : (c.N : Int) * (c.iterations : Int) ≤ INT_MAX) :
    ∃ n : Nat, n ≤ c.N * c.iterations ∧ s.a = (n : Int) ∧
      rets s.trace = (List.range n).map (fun (j : Nat) => (j : Int) + 1) ∧
      (rets s.trace).Nodup ∧
      (AllFinished c s → n = c.N * c.iterations) := by
  have hinv := inv_reachable c sched s hs
  have hle := total_le c s hinv
  have hle' : ((total s.thrVec : Nat) : Int) ≤ INT_MAX := by
    have : ((total s.thrVec : Nat) : Int) ≤ ((c.N * c.iterations : Nat) : Int) := by
      exact_mod_cast hle
    push_cast at this
    omega
  have hrets : rets s.trace = (List.range (total s.thrVec)).map (fun (j : Nat) => (j : Int) + 1) := by
    rw [hinv.rets_eq]
    apply List.map_congr_left
    intro j hj
    have hj' := List.mem_range.mp hj
    exact wrapInt_of_le _ (by omega) (by omega)
  refine ⟨total s.thrVec, hle, ?_, hrets, ?_, fun hdone => total_of_allFinished c s hinv hdone⟩
  · rw [hinv.a_eq]
    exact wrapInt_of_le _ (by omega) hle'
  · rw [hrets]
    apply List.Nodup.map _ (List.nodup_range _)
    intro x y hxy
    simp only at hxy
    omega

theorem increments_return_witness :
    run program init (seqSchedule 4 5) = some finalState ∧
      (program.N : Int) * (program.iterations : Int) ≤ INT_MAX ∧
      ∃ n : Nat, n ≤ program.N * program.iterations ∧ finalState.a = (n : Int) ∧
        rets finalState.trace = (List.range n).map (fun (j : Nat) => (j : Int) + 1) ∧
        (rets finalState.trace).Nodup ∧
        (AllFinished program finalState → n = program.N * program.iterations) :=
  ⟨run_seqSchedule, by decide,
    increments_return program (seqSchedule 4 5) finalState run_seqSchedule (by decide)⟩

/-! ## Identities -/

/-- C6, as stated, fails: `++last_id` is a load and a store of a plain `int`, and two
constructors whose loads and stores interleave both obtain the identity 1. -/
theorem identities_race :
    runCtors { last_id := 0, ctors := [CtorPc.start, CtorPc.start] } [0, 1, 0, 1]
      = some { last_id := 1, ctors := [CtorPc.done 1, CtorPc.done 1] } := by
  decide

/-- C6, amended: in the program the elements of the vector are constructed one after
another by the main thread, and in every execution the identities of the elements
constructed so far are `1, 2, ..` in the order of construction, with no repeats; there are
never more than `N`, and exactly `N` once the vector is built. -/
theorem identities_sequential (c : Config) (sched : List (Option Nat)) (s : State)
    (hs : run c init sched = some s) :
    identities s = (List.range s.thrVec.length).map (fun (w : Nat) => (w : Int) + 1) ∧
      (identities s).Nodup ∧ s.thrVec.length ≤ c.N ∧
      (s.pc ≠ MainPc.construct → s.thrVec.length = c.N) := by
  have hinv := inv_reachable c sched s hs
  have hids : identities s
      = (List.range s.thrVec.length).map (fun (w : Nat) => (w : Int) + 1) := by
    apply List.ext_getElem?
    intro n
    simp only [identities, List.getElem?_map]
    by_cases hn : n < s.thrVec.length
    · have ht : s.thrVec[n]? = some (s.thrVec[n]) := List.getElem?_eq_getElem hn
      generalize s.thrVec[n] = t at ht
      rw [ht, List.getElem?_range hn]
      simp [(hinv.thread n t ht).1]
    · rw [List.getElem?_eq_none (by omega), List.getElem?_eq_none (by simp; omega)]
      rfl
  refine ⟨hids, ?_, hinv.len_le, ?_⟩
  · rw [hids]
    apply List.Nodup.map _ (List.nodup_range _)
    intro x y hxy
    simp only at hxy
    omega
  · intro hpc
    have hmain := hinv.main
    cases hp : s.pc with
    | construct => exact absurd hp hpc
    | endl => rw [hp] at hmain; exact hmain.1
    | destroy j => rw [hp] at hmain; exact hmain.1
    | exit => rw [hp] at hmain; exact hmain.1

set_option maxRecDepth 1000000 in
theorem identities_sequential_witness :
    run program init (seqSchedule 4 5) = some finalState ∧
      identities finalState = [1, 2, 3, 4] ∧ (identities finalState).Nodup :=
  ⟨run_seqSchedule, by decide,
    (identities_sequential program (seqSchedule 4 5) finalState run_seqSchedule).2.1⟩

/-! ## The two messages of an iteration -/

set_option maxRecDepth 1000000 in
/-- C8, as stated, fails: in the execution of the program under `interleavedSchedule` the
line `2) increasing a` of the second worker stands between the two messages of the first
iteration of the first worker. -/
theorem messages_interleaved :
    run program init interleavedSchedule = some interleavedState ∧
      interleavedState.pc = MainPc.exit ∧
      interleavedState.cout.take 5 =
        ["Waiting for the parallel jobs to be finished", "\n", "1) increasing a\n",
         "2) increasing a\n", "1) a is increased to 1\n"] ∧
      (consoleLines interleavedState.cout).take 4 =
        ["Waiting for the parallel jobs to be finished", "1) increasing a",
         "2) increasing a", "1) a is increased to 1"] := by
  decide

theorem outs_append (a b : List Event) : outs (a ++ b) = outs a ++ outs b := by
  simp [outs]

theorem outs_flatMap_iteration (w : Nat) (id : Int) (vs : List Int) :
    outs (vs.flatMap (iteration w id)) = ownMessages id vs := by
  induction vs with
  | nil => rfl
  | cons v vs ih =>
    simp only [List.flatMap_cons, outs_append, ih, ownMessages]
    simp [outs, iteration, Event.text]

/-- C8, amended: in every execution, each of the two messages of one loop iteration of a
worker is put on the console by one insertion holding the whole line, and among the
insertions of that worker itself the `increasing a` line of an iteration is directly
followed by the `a is increased to <value>` line of the same iteration; insertions of other
threads may stand between the two. The console is the sequence of the insertions of the
trace, and the two lines are the texts `<id>) increasing a` and
`<id>) a is increased to <value>`, each with its line feed. -/
theorem own_messages_in_order (c : Config) (sched : List (Option Nat)) (s : State)
    (w : Nat) (t : TestThreads) (hs : run c init sched = some s)
    (ht : s.thrVec[w]? = some t) :
    (∃ vs : List Int, vs.length = t.i ∧
      outs (eventsOf (some w) s.trace)
        = ownMessages t.this_id vs
          ++ (if t.pc = Pc.head then [] else [increasingLine t.this_id])) ∧
    s.cout = outs s.trace ∧
    increasingLine t.this_id = fmtInt t.this_id ++ ") increasing a\n" ∧
    (∀ v, increasedLine t.this_id v
      = fmtInt t.this_id ++ ") a is increased to " ++ fmtInt v ++ "\n") := by
  have hinv := inv_reachable c sched s hs
  obtain ⟨_, _, _, vs, hlen, hev⟩ := hinv.thread w t ht
  refine ⟨⟨vs, hlen, ?_⟩, hinv.cout_eq,
    by simp [increasingLine, PrintAtOnce.shl, PrintAtOnce.new],
    fun v => by simp [increasedLine, PrintAtOnce.shl, PrintAtOnce.new]⟩
  cases hp : t.pc with
  | head =>
    rw [hp] at hev
    simp only at hev
    rw [hev, outs_flatMap_iteration]
    simp
  | flushed =>
    rw [hp] at hev
    simp only at hev
    rw [hev.1, outs_append, outs_flatMap_iteration]
    simp [outs, Event.text]
  | incremented =>
    rw [hp] at hev
    simp only at hev
    obtain ⟨v, hev1, _⟩ := hev
    rw [hev1, outs_append, outs_flatMap_iteration]
    simp [outs, Event.text]

set_option maxRecDepth 1000000 in
theorem own_messages_in_order_witness :
    run program init interleavedSchedule = some interleavedState ∧
      interleavedState.thrVec[1]? = some
        { this_id := 2, i := 5, pc := Pc.head, msg := { ss := "" } } ∧
      ∃ vs : List Int, vs.length = 5 ∧
        outs (eventsOf (some 1) interleavedState.trace)
          = ownMessages 2 vs ++ (if Pc.head = Pc.head then [] else [increasingLine 2]) :=
  ⟨by decide, by decide,
    (own_messages_in_order program interleavedSchedule interleavedState 1
      { this_id := 2, i := 5, pc := Pc.head, msg := { ss := "" } } (by decide)
      (by decide)).1⟩

/-! ## The loop of a worker -/

/-- A background thread, scheduled alone, reaches its return. -/
theorem worker_runs_to_end (c : Config) (w : Nat) : ∀ (m : Nat) (s : State) (t : TestThreads),
    Inv c s → s.thrVec[w]? = some t → workRemaining c s.thrVec ≤ m →
    ∃ k s' t', run c s (List.replicate k (some w)) = some s' ∧ s'.thrVec[w]? = some t' ∧
      t'.finished c = true := by
  intro m
  induction m with
  | zero =>
    intro s t h ht hm
    by_cases hfin : t.finished c = true
    · exact ⟨0, s, t, rfl, ht, hfin⟩
    · obtain ⟨s1, _, _, _, hrem⟩ :=
        thread_func_increase_a_progress c s w t h ht (by simpa using hfin)
      omega
  | succ m ih =>
    intro s t h ht hm
    by_cases hfin : t.finished c = true
    · exact ⟨0, s, t, rfl, ht, hfin⟩
    · obtain ⟨s1, hs1, _, hlen, hrem⟩ :=
        thread_func_increase_a_progress c s w t h ht (by simpa using hfin)
      have hw : w < s1.thrVec.length := by
        rw [hlen]; exact (List.getElem?_eq_some.mp ht).1
      have ht1 : s1.thrVec[w]? = some (s1.thrVec[w]) := List.getElem?_eq_getElem hw
      generalize s1.thrVec[w] = t1 at ht1
      obtain ⟨k, s', t', hrun, ht', hfin'⟩ :=
        ih s1 t1 (inv_thread_func_increase_a c s s1 w h hs1) ht1 (by omega)
      exact ⟨k + 1, s', t', run_cons_of_step c s s1 s' (some w) _ hs1 hrun, ht', hfin'⟩

/-- C10: for every worker and every repetition count `K`, the worker's loop can always run
to its end, whatever the other threads have done so far; and once it has ended, the events
of the worker are exactly `K` iterations, each made of one insertion of the text
`<id>) increasing a\n` alone, then one increment, then one insertion of the text
`<id>) a is increased to <v>\n` alone, where `v` is the value returned by the increment of
that same iteration and `id` is the worker's identity. The console is the sequence of the
insertions of the trace. -/
theorem worker_loop (c : Config) (sched : List (Option Nat)) (s : State) (w : Nat)
    (t : TestThreads) (hs : run c init sched = some s) (ht : s.thrVec[w]? = some t) :
    (∃ k s' t', run c s (List.replicate k (some w)) = some s' ∧ s'.thrVec[w]? = some t' ∧
      t'.finished c = true) ∧
    (t.finished c = true →
      ∃ vs : List Int, vs.length = c.iterations ∧
        eventsOf (some w) s.trace = vs.flatMap (fun v =>
          [Event.out (some w) (increasingLine t.this_id), Event.inc w v,
           Event.out (some w) (increasedLine t.this_id v)])) ∧
    s.cout = outs s.trace ∧
    increasingLine t.this_id = fmtInt t.this_id ++ ") increasing a\n" ∧
    (∀ v, increasedLine t.this_id v
      = fmtInt t.this_id ++ ") a is increased to " ++ fmtInt v ++ "\n") := by
  have hinv := inv_reachable c sched s hs
  refine ⟨worker_runs_to_end c w _ s t hinv ht (Nat.le_refl _), ?_, hinv.cout_eq,
    by simp [increasingLine, PrintAtOnce.shl, PrintAtOnce.new],
    fun v => by simp [increasedLine, PrintAtOnce.shl, PrintAtOnce.new]⟩
  intro hfin
  obtain ⟨_, hile, _, vs, hlen, hev⟩ := hinv.thread w t ht
  have hf := (finished_iff c t).mp hfin
  rw [hf.1] at hev
  exact ⟨vs, by omega, hev⟩

set_option maxRecDepth 1000000 in
theorem worker_loop_witness :
    run program init (seqSchedule 4 5) = some finalState ∧
      finalState.thrVec[2]? = some
        { this_id := 3, i := 5, pc := Pc.head, msg := { ss := "" } } ∧
      eventsOf (some 2) finalState.trace = [11, 12, 13, 14, 15].flatMap (fun v =>
        [Event.out (some 2) (increasingLine 3), Event.inc 2 v,
         Event.out (some 2) (increasedLine 3 v)]) ∧
      ∃ k s' t', run program finalState (List.replicate k (some 2)) = some s' ∧
        s'.thrVec[2]? = some t' ∧ t'.finished program = true :=
  ⟨run_seqSchedule, by decide, by decide,
    (worker_loop program (seqSchedule 4 5) finalState 2
      { this_id := 3, i := 5, pc := Pc.head, msg := { ss := "" } }
      run_seqSchedule (by decide)).1⟩

/-! ## The console text, line by line -/

theorem linesAux_eq (cs : List Char) : ∀ cur : List Char,
    linesAux cs cur
      = emit cs cur ++ (if carry cs cur = [] then [] else [String.mk (carry cs cur).reverse]) := by
  induction cs with
  | nil => intro cur; simp [linesAux, emit, carry]
  | cons ch cs ih =>
    intro cur
    by_cases h : ch = '\n'
    · simp [linesAux, emit, carry, h, ih]
    · simp [linesAux, emit, carry, h, ih]

theorem emit_append (a b : List Char) : ∀ cur : List Char,
    emit (a ++ b) cur = emit a cur ++ emit b (carry a cur) := by
  induction a with
  | nil => intro cur; simp [emit, carry]
  | cons ch cs ih =>
    intro cur
    by_cases h : ch = '\n'
    · simp [emit, carry, h, ih]
    · simp [emit, carry, h, ih]

theorem carry_append (a b : List Char) : ∀ cur : List Char,
    carry (a ++ b) cur = carry b (carry a cur) := by
  induction a with
  | nil => intro cur; simp [carry]
  | cons ch cs ih =>
    intro cur
    by_cases h : ch = '\n'
    · simp [carry, h, ih]
    · simp [carry, h, ih]

theorem emit_plain (a : List Char) : ∀ cur : List Char, '\n' ∉ a → emit a cur = [] := by
  induction a with
  | nil => intro cur _; rfl
  | cons ch cs ih =>
    intro cur h
    simp only [List.mem_cons, not_or] at h
    have hne : ch ≠ '\n' := fun hh => h.1 hh.symm
    simp [emit, hne, ih _ h.2]

theorem carry_plain (a : List Char) : ∀ cur : List Char, '\n' ∉ a →
    carry a cur = a.reverse ++ cur := by
  induction a with
  | nil => intro cur _; rfl
  | cons ch cs ih =>
    intro cur h
    simp only [List.mem_cons, not_or] at h
    have hne : ch ≠ '\n' := fun hh => h.1 hh.symm
    simp [carry, hne, ih _ h.2]

theorem emit_fullLine (L : List Char) (cur : List Char) (h : '\n' ∉ L) :
    emit (L ++ ['\n']) cur = [String.mk (cur.reverse ++ L)] := by
  rw [emit_append, emit_plain L cur h, carry_plain L cur h]
  simp [emit]

theorem carry_fullLine (L : List Char) (cur : List Char) :
    carry (L ++ ['\n']) cur = [] := by
  rw [carry_append]
  simp [carry]

theorem join_cons_data (x : String) (xs : List String) :
    (String.join (x :: xs)).data = x.data ++ (String.join xs).data := by
  simp [String.data_join]

theorem newline_not_mem_fmtInt (x : Int) : '\n' ∉ (fmtInt x).data := by
  intro h
  rcases fmtInt_chars x _ h with h | h
  · simp [Char.isDigit] at h
  · simp at h

theorem fullLine_increasingLine (id : Int) : FullLine (increasingLine id) := by
  refine ⟨(fmtInt id).data ++ ") increasing a".data, ?_, ?_⟩
  · rw [increasingLine_data]; simp
  · have := newline_not_mem_fmtInt id
    simp only [List.mem_append, not_or]
    exact ⟨this, by decide⟩

theorem fullLine_increasedLine (id v : Int) : FullLine (increasedLine id v) := by
  refine ⟨(fmtInt id).data ++ (") a is increased to ".data ++ (fmtInt v).data), ?_, ?_⟩
  · rw [increasedLine_data]; simp
  · have h1 := newline_not_mem_fmtInt id
    have h2 := newline_not_mem_fmtInt v
    simp only [List.mem_append, not_or]
    exact ⟨h1, by decide, h2⟩

theorem fullLine_terminatedLine (id : Int) : FullLine (terminatedLine id) := by
  refine ⟨(fmtInt id).data ++ ") is terminated".data, ?_, ?_⟩
  · rw [terminatedLine_data]; simp
  · have := newline_not_mem_fmtInt id
    simp only [List.mem_append, not_or]
    exact ⟨this, by decide⟩

theorem terminatedLine_eq (id : Int) : terminatedLine id = terminatedText id ++ "\n" := by
  apply String.ext
  rw [terminatedLine_data]
  simp [terminatedText]

theorem mem_outs (tr : List Event) (x : String) :
    x ∈ outs tr ↔ ∃ e ∈ tr, e.text = some x := by
  simp [outs, List.mem_filterMap]

theorem outs_cons (e : Event) (tr : List Event) :
    outs (e :: tr) = (match e.text with | some x => [x] | none => []) ++ outs tr := by
  cases e <;> simp [outs, Event.text, List.filterMap_cons]

theorem body_append_newline (l : String) : body (l ++ "\n") = l := by
  apply String.ext
  simp [body]

theorem body_of_data (x : String) (L : List Char) (h : x.data = L ++ ['\n']) :
    body x = String.mk L := by
  apply String.ext
  simp [body, h]

theorem increasingLine_eq (id : Int) : increasingLine id = increasingText id ++ "\n" := by
  apply String.ext
  rw [increasingLine_data]
  simp [increasingText]

theorem increasedLine_eq (id v : Int) : increasedLine id v = increasedText id v ++ "\n" := by
  apply String.ext
  rw [increasedLine_data]
  simp [increasedText]

theorem workerLine_full (c : Config) (x : String) (h : WorkerLine c x) :
    FullLine x ∧ WorkerText c (body x) := by
  obtain ⟨id, v, h1, h2, hx | hx⟩ := h
  · rw [hx]
    refine ⟨fullLine_increasingLine id, id, v, h1, h2, Or.inl ?_⟩
    rw [increasingLine_eq, body_append_newline]
  · rw [hx]
    refine ⟨fullLine_increasedLine id v, id, v, h1, h2, Or.inr ?_⟩
    rw [increasedLine_eq, body_append_newline]

theorem destructorLine_full (c : Config) (x : String) (h : DestructorLine c x) :
    FullLine x ∧ ∃ id : Int, 1 ≤ id ∧ id ≤ (c.N : Int) ∧ body x = terminatedText id := by
  obtain ⟨id, h1, h2, hx⟩ := h
  rw [hx]
  refine ⟨fullLine_terminatedLine id, id, h1, h2, ?_⟩
  rw [terminatedLine_eq, body_append_newline]

/-- Reading whole lines only, with no unfinished line before: the lines are the insertions
without their line feeds. -/
theorem emit_join_full : ∀ xs : List String, (∀ x ∈ xs, FullLine x) →
    emit (String.join xs).data [] = xs.map body ∧ carry (String.join xs).data [] = [] := by
  intro xs
  induction xs with
  | nil => intro _; simp [String.join, emit, carry]
  | cons x xs ih =>
    intro hall
    obtain ⟨L, hL, hnl⟩ := hall x (List.mem_cons_self _ _)
    obtain ⟨h1, h2⟩ := ih (fun y hy => hall y (List.mem_cons_of_mem _ hy))
    rw [join_cons_data, emit_append, carry_append, hL, emit_fullLine L [] hnl,
      carry_fullLine L [], h1, h2]
    simp [body_of_data x L hL]

/-- Reading whole lines after an unfinished line: the first insertion finishes that line. -/
theorem emit_join_full_cons (x : String) (xs : List String) (cur : List Char)
    (hall : ∀ y ∈ x :: xs, FullLine y) :
    emit (String.join (x :: xs)).data cur
        = String.mk (cur.reverse ++ (body x).data) :: xs.map body ∧
      carry (String.join (x :: xs)).data cur = [] := by
  obtain ⟨L, hL, hnl⟩ := hall x (List.mem_cons_self _ _)
  obtain ⟨h1, h2⟩ := emit_join_full xs (fun y hy => hall y (List.mem_cons_of_mem _ hy))
  rw [join_cons_data, emit_append, carry_append, hL, emit_fullLine L cur hnl,
    carry_fullLine L cur, h1, h2]
  simp [body_of_data x L hL]

/-- The lines of a console made of whole lines only. -/
theorem consoleLines_full (xs : List String) (hall : ∀ x ∈ xs, FullLine x) :
    consoleLines xs = xs.map body := by
  obtain ⟨h1, h2⟩ := emit_join_full xs hall
  unfold consoleLines consoleText
  rw [linesAux_eq, h1, h2]
  simp

/-- The lines of a console made of whole lines and one text `W` without line feed: the
insertion after `W`, if there is one, continues the line of `W`. -/
theorem consoleLines_waiting (W : String) (X Y : List String) (hW : '\n' ∉ W.data)
    (hne : W.data ≠ []) (hX : ∀ x ∈ X, FullLine x) (hY : ∀ y ∈ Y, FullLine y) :
    consoleLines (X ++ W :: Y)
      = X.map body ++ (match Y with
          | [] => [W]
          | y :: ys => (W ++ body y) :: ys.map body) := by
  obtain ⟨h1, h2⟩ := emit_join_full X hX
  have hdata : (consoleText (X ++ W :: Y)).data
      = (String.join X).data ++ (W.data ++ (String.join Y).data) := by
    simp [consoleText, String.data_join]
  unfold consoleLines
  rw [linesAux_eq, hdata, emit_append, carry_append, h1, h2, emit_append, carry_append,
    emit_plain W.data [] hW, carry_plain W.data [] hW]
  cases Y with
  | nil =>
    have : W.data.reverse ++ [] ≠ [] := by simpa using hne
    simp [String.join, emit, carry, hne]
  | cons y ys =>
    obtain ⟨h3, h4⟩ := emit_join_full_cons y ys (W.data.reverse ++ []) hY
    rw [h3, h4]
    simp
    apply String.ext
    simp

theorem eventsOf_eq_filter (x : Option Nat) (tr : List Event) :
    eventsOf x tr = tr.filter (fun e => decide (e.thread = x)) := rfl

/-- An insertion of a stretch of the execution is a message of a worker or an insertion of
the main thread in that stretch. -/
theorem stretch_kind (c : Config) (s : State) (hinv : Inv c s) (m : List Event)
    (hsub : ∀ e ∈ m, e ∈ s.trace) (x : String) (hx : x ∈ outs m) :
    WorkerLine c x ∨ ∃ e ∈ m, e.thread = none ∧ e.text = some x := by
  obtain ⟨e, he, hex⟩ := (mem_outs m x).mp hx
  cases hth : e.thread with
  | none => exact Or.inr ⟨e, he, hth, hex⟩
  | some w =>
    left
    obtain ⟨hw, hshape⟩ := worker_event_shape c s hinv e w (hsub e he) hth
    rcases hshape with h | ⟨v, h | h⟩
    · rw [h] at hex; simp only [Event.text] at hex; injection hex with hex
      exact ⟨(w : Int) + 1, 0, by omega, by omega, Or.inl hex.symm⟩
    · rw [h] at hex; simp [Event.text] at hex
    · rw [h] at hex; simp only [Event.text] at hex; injection hex with hex
      exact ⟨(w : Int) + 1, v, by omega, by omega, Or.inr hex.symm⟩

/-- A stretch without events of the main thread holds messages of workers only. -/
theorem worker_stretch (c : Config) (s : State) (hinv : Inv c s) (m : List Event)
    (hsub : ∀ e ∈ m, e ∈ s.trace) (hno : ∀ e ∈ m, e.thread ≠ none) :
    ∀ x ∈ outs m, WorkerLine c x := by
  intro x hx
  rcases stretch_kind c s hinv m hsub x hx with h | ⟨e, he, hth, _⟩
  · exact h
  · exact absurd hth (hno e he)

/-- The console up to the "Waiting" text of `main`, and after it, while `main` has not yet
inserted the line feed of `std::endl`: messages of workers only. -/
theorem shape_before_endl (c : Config) (s : State) (hinv : Inv c s)
    (h : eventsOf none s.trace = [Event.out none "Waiting for the parallel jobs to be finished"]) :
    ∃ X Y, s.cout = X ++ "Waiting for the parallel jobs to be finished" :: Y ∧
      (∀ x ∈ X, WorkerLine c x) ∧ (∀ y ∈ Y, WorkerLine c y) := by
  rw [eventsOf_eq_filter] at h
  obtain ⟨l1, l2, htr, hno1, _, hl2⟩ := List.filter_eq_cons_iff.mp h
  have hno2 : ∀ e ∈ l2, e.thread ≠ none := by
    intro e he hth
    have := List.filter_eq_nil_iff.mp hl2 e he
    simp [hth] at this
  refine ⟨outs l1, outs l2, ?_, ?_, ?_⟩
  · rw [hinv.cout_eq, htr, outs_append, outs_cons]; rfl
  · exact worker_stretch c s hinv l1 (fun e he => by rw [htr]; simp [he])
      (fun e he hth => hno1 e he (by simp [hth]))
  · exact worker_stretch c s hinv l2 (fun e he => by rw [htr]; simp [he]) hno2

/-- The console once `main` has inserted the line feed of `std::endl`: messages of workers
up to the "Waiting" text and between it and the line feed; after the line feed messages of
workers, termination lines, and the last line of `main`. -/
theorem shape_after_endl (c : Config) (s : State) (hinv : Inv c s) (rest : List Event)
    (h : eventsOf none s.trace
      = Event.out none "Waiting for the parallel jobs to be finished"
        :: Event.out none "\n" :: rest)
    (hrest : ∀ e ∈ rest, (∃ q, q < c.N ∧ e = terminatedEvent c q) ∨
      e = Event.out none "All jobs finished! Terminating program...\n") :
    ∃ X Y2 Y3, s.cout = X ++ "Waiting for the parallel jobs to be finished"
        :: (Y2 ++ "\n" :: Y3) ∧
      (∀ x ∈ X, WorkerLine c x) ∧ (∀ y ∈ Y2, WorkerLine c y) ∧
      (∀ y ∈ Y3, WorkerLine c y ∨ DestructorLine c y ∨
        y = "All jobs finished! Terminating program...\n") := by
  rw [eventsOf_eq_filter] at h
  obtain ⟨l1, r1, htr, hno1, _, hr1⟩ := List.filter_eq_cons_iff.mp h
  obtain ⟨l2, l3, hr, hno2, _, hl3⟩ := List.filter_eq_cons_iff.mp hr1
  refine ⟨outs l1, outs l2, outs l3, ?_, ?_, ?_, ?_⟩
  · rw [hinv.cout_eq, htr, hr, outs_append, outs_cons, outs_append, outs_cons]; rfl
  · exact worker_stretch c s hinv l1 (fun e he => by rw [htr]; simp [he])
      (fun e he hth => hno1 e he (by simp [hth]))
  · exact worker_stretch c s hinv l2 (fun e he => by rw [htr, hr]; simp [he])
      (fun e he hth => hno2 e he (by simp [hth]))
  · intro y hy
    rcases stretch_kind c s hinv l3 (fun e he => by rw [htr, hr]; simp [he]) y hy with
      hw | ⟨e, he, hth, hex⟩
    · exact Or.inl hw
    · have hmem : e ∈ List.filter (fun e => decide (e.thread = none)) l3 :=
        List.mem_filter.mpr ⟨he, by simp [hth]⟩
      rw [hl3] at hmem
      rcases hrest e hmem with ⟨q, hq, heq⟩ | heq
      · rw [heq] at hex
        simp only [Event.text, terminatedEvent] at hex
        injection hex with hex
        have := destroyIdx_lt c q hq
        exact Or.inr (Or.inl ⟨(destroyIdx c q : Nat) + 1, by omega, by omega, hex.symm⟩)
      · rw [heq] at hex
        simp only [Event.text] at hex
        injection hex with hex
        exact Or.inr (Or.inr hex.symm)

theorem workerText_template (c : Config) (l : String) (h : WorkerText c l) :
    TemplateText c l := by
  obtain ⟨id, v, h1, h2, hl | hl⟩ := h
  · exact ⟨id, v, h1, h2, Or.inl hl⟩
  · exact ⟨id, v, h1, h2, Or.inr (Or.inl hl)⟩

theorem kind_body (c : Config) (y : String)
    (h : WorkerLine c y ∨ DestructorLine c y ∨
      y = "All jobs finished! Terminating program...\n") :
    FullLine y ∧ (TemplateText c (body y) ∨
      body y = "All jobs finished! Terminating program...") := by
  rcases h with h | h | h
  · obtain ⟨hf, ht⟩ := workerLine_full c y h
    exact ⟨hf, Or.inl (workerText_template c _ ht)⟩
  · obtain ⟨hf, id, h1, h2, hb⟩ := destructorLine_full c y h
    exact ⟨hf, Or.inl ⟨id, 0, h1, h2, Or.inr (Or.inr hb)⟩⟩
  · rw [h]
    exact ⟨⟨"All jobs finished! Terminating program...".data, rfl, by decide⟩,
      Or.inr (body_append_newline "All jobs finished! Terminating program...")⟩

/-- The lines of the console text read in one of the three ways, in every reachable
state. -/
theorem lines_shape (c : Config) (s : State) (hinv : Inv c s) :
    LinesShape c (consoleLines s.cout) := by
  have hWnl : '\n' ∉ "Waiting for the parallel jobs to be finished".data := by decide
  have hWne : "Waiting for the parallel jobs to be finished".data ≠ [] := by decide
  have bodies : ∀ X : List String, (∀ x ∈ X, WorkerLine c x) →
      (∀ x ∈ X, FullLine x) ∧ ∀ l ∈ X.map body, WorkerText c l := by
    intro X hX
    refine ⟨fun x hx => (workerLine_full c x (hX x hx)).1, ?_⟩
    intro l hl
    obtain ⟨x, hx, hxl⟩ := List.mem_map.mp hl
    rw [← hxl]
    exact (workerLine_full c x (hX x hx)).2
  -- the console before the line feed of `std::endl`
  have before : ∀ X Y, s.cout = X ++ "Waiting for the parallel jobs to be finished" :: Y →
      (∀ x ∈ X, WorkerLine c x) → (∀ y ∈ Y, WorkerLine c y) →
      LinesShape c (consoleLines s.cout) := by
    intro X Y hcout hX hY
    unfold LinesShape
    obtain ⟨hXf, hXb⟩ := bodies X hX
    obtain ⟨hYf, hYb⟩ := bodies Y hY
    have hl := consoleLines_waiting _ X Y hWnl hWne hXf hYf
    rw [← hcout] at hl
    cases Y with
    | nil => exact Or.inr (Or.inl ⟨X.map body, [], hl, hXb, fun l hl => by simp at hl⟩)
    | cons y ys =>
      refine Or.inr (Or.inr ⟨X.map body, body y, ys.map body, hl,
        (workerLine_full c y (hY y (List.mem_cons_self _ _))).2, hXb, ?_⟩)
      intro l hl'
      exact Or.inl (workerText_template c l
        (hYb l (by simp only [List.map_cons]; exact List.mem_cons_of_mem _ hl')))
  -- the console after the line feed of `std::endl`
  have after : ∀ rest : List Event,
      eventsOf none s.trace = Event.out none "Waiting for the parallel jobs to be finished"
        :: Event.out none "\n" :: rest →
      (∀ e ∈ rest, (∃ q, q < c.N ∧ e = terminatedEvent c q) ∨
        e = Event.out none "All jobs finished! Terminating program...\n") →
      LinesShape c (consoleLines s.cout) := by
    intro rest h hrest
    unfold LinesShape
    obtain ⟨X, Y2, Y3, hcout, hX, hY2, hY3⟩ := shape_after_endl c s hinv rest h hrest
    obtain ⟨hXf, hXb⟩ := bodies X hX
    obtain ⟨hY2f, hY2b⟩ := bodies Y2 hY2
    have hnl : FullLine "\n" := ⟨[], rfl, by simp⟩
    have hY3f : ∀ y ∈ Y3, FullLine y := fun y hy => (kind_body c y (hY3 y hy)).1
    have hY3b : ∀ l ∈ Y3.map body, TemplateText c l ∨
        l = "All jobs finished! Terminating program..." := by
      intro l hl
      obtain ⟨y, hy, hyl⟩ := List.mem_map.mp hl
      rw [← hyl]
      exact (kind_body c y (hY3 y hy)).2
    have hYf : ∀ y ∈ Y2 ++ "\n" :: Y3, FullLine y := by
      intro y hy
      simp only [List.mem_append, List.mem_cons] at hy
      rcases hy with hy | hy | hy
      · exact hY2f y hy
      · rw [hy]; exact hnl
      · exact hY3f y hy
    have hl := consoleLines_waiting _ X (Y2 ++ "\n" :: Y3) hWnl hWne hXf hYf
    rw [← hcout] at hl
    have hbn : body "\n" = "" := body_append_newline ""
    cases Y2 with
    | nil =>
      refine Or.inr (Or.inl ⟨X.map body, Y3.map body, ?_, hXb, hY3b⟩)
      rw [hl]
      simp only [List.nil_append, hbn]
      rfl
    | cons y ys =>
      refine Or.inr (Or.inr ⟨X.map body, body y, (ys ++ "\n" :: Y3).map body, hl,
        (workerLine_full c y (hY2 y (List.mem_cons_self _ _))).2, hXb, ?_⟩)
      intro l hl'
      simp only [List.map_append, List.map_cons, List.mem_append, List.mem_cons] at hl'
      rcases hl' with hl' | hl' | hl'
      · exact Or.inl (workerText_template c l
          (hY2b l (by simp only [List.map_cons]; exact List.mem_cons_of_mem _ hl')))
      · exact Or.inr (Or.inr (by rw [hl', hbn]))
      · rcases hY3b l hl' with h1 | h1
        · exact Or.inl h1
        · exact Or.inr (Or.inl h1)
  have hmain := hinv.main
  cases hp : s.pc with
  | construct =>
    rw [hp] at hmain
    simp only [MainInv] at hmain
    unfold LinesShape
    left
    have hall : ∀ x ∈ s.cout, WorkerLine c x := by
      rw [hinv.cout_eq]
      apply worker_stretch c s hinv s.trace (fun e he => he)
      intro e he hth
      have : e ∈ eventsOf none s.trace := (mem_eventsOf _ _ _).mpr ⟨he, hth⟩
      rw [hmain] at this
      exact absurd this (List.not_mem_nil _)
    obtain ⟨hf, hb⟩ := bodies s.cout hall
    rw [consoleLines_full s.cout hf]
    exact hb
  | endl =>
    rw [hp] at hmain
    obtain ⟨X, Y, hcout, hX, hY⟩ := shape_before_endl c s hinv hmain.2
    exact before X Y hcout hX hY
  | destroy j =>
    rw [hp] at hmain
    obtain ⟨_, hj, h3, _⟩ := hmain
    apply after ((List.range j).map (terminatedEvent c)) (by rw [h3]; rfl)
    intro e he
    obtain ⟨q, hq, hqe⟩ := List.mem_map.mp he
    exact Or.inl ⟨q, by have := List.mem_range.mp hq; omega, hqe.symm⟩
  | exit =>
    rw [hp] at hmain
    obtain ⟨_, h3, _⟩ := hmain
    apply after ((List.range c.N).map (terminatedEvent c)
      ++ [Event.out none "All jobs finished! Terminating program...\n"])
      (by rw [h3]; simp)
    intro e he
    simp only [List.mem_append, List.mem_map, List.mem_range, List.mem_singleton] at he
    rcases he with ⟨q, hq, hqe⟩ | he
    · exact Or.inl ⟨q, hq, hqe.symm⟩
    · exact Or.inr he

theorem paren_mem_templateText (c : Config) (l : String) (h : TemplateText c l) :
    ')' ∈ l.data := by
  obtain ⟨id, v, _, _, hl | hl | hl⟩ := h
  · rw [hl]; simp [increasingText]
  · rw [hl]; simp [increasedText]
  · rw [hl]; simp [terminatedText]

/-- The insertions of the main thread so far are the first of `mainTexts`, and all of them
once `main` has returned. -/
theorem main_outs_prefix (c : Config) (s : State) (hinv : Inv c s) :
    outs (eventsOf none s.trace) <+: mainTexts c ∧
      (s.pc = MainPc.exit → outs (eventsOf none s.trace) = mainTexts c) := by
  have hmap : ∀ n, outs ((List.range n).map (terminatedEvent c))
      = (List.range n).map (fun q => terminatedLine ((destroyIdx c q : Nat) + 1)) := by
    intro n
    simp only [outs, List.filterMap_map]
    exact congrFun (List.filterMap_eq_map
      (fun q => terminatedLine ((destroyIdx c q : Nat) + 1))) (List.range n)
  have hmain := hinv.main
  cases hp : s.pc with
  | construct =>
    rw [hp] at hmain
    simp only [MainInv] at hmain
    rw [hmain]
    exact ⟨List.nil_prefix, fun h => by cases h⟩
  | endl =>
    rw [hp] at hmain
    rw [hmain.2]
    exact ⟨⟨_, rfl⟩, fun h => by cases h⟩
  | destroy j =>
    rw [hp] at hmain
    obtain ⟨_, hj, h3, _⟩ := hmain
    rw [h3, outs_append, hmap]
    refine ⟨⟨((List.range c.N).map
        (fun q => terminatedLine ((destroyIdx c q : Nat) + 1))).drop j
        ++ ["All jobs finished! Terminating program...\n"], ?_⟩, fun h => by cases h⟩
    have ht : (List.range j).map (fun q => terminatedLine ((destroyIdx c q : Nat) + 1))
        = ((List.range c.N).map
          (fun q => terminatedLine ((destroyIdx c q : Nat) + 1))).take j := by
      rw [← List.map_take, List.take_range, Nat.min_eq_left hj]
    rw [ht]
    simp only [mainTexts, outs, Event.text, List.filterMap_cons, List.filterMap_nil,
      List.append_assoc]
    rw [← List.append_assoc (List.take j _), List.take_append_drop]
  | exit =>
    rw [hp] at hmain
    obtain ⟨_, h3, _⟩ := hmain
    have : outs (eventsOf none s.trace) = mainTexts c := by
      rw [h3, outs_append, outs_append, hmap]
      rfl
    exact ⟨by rw [this], fun _ => this⟩

theorem not_template_of_head (x : String) (ch : Char) (h : x.data.head? = some ch)
    (h1 : ch.isDigit = false) (h2 : ch ≠ '-') (h3 : ch ≠ ')') : ¬ IsTemplateLine x := by
  have key : ∀ (id : Int) (r : List Char), x.data = (fmtInt id).data ++ ')' :: r → False := by
    intro id r hx
    rw [hx, List.head?_append] at h
    cases hd : (fmtInt id).data with
    | nil =>
      rw [hd] at h
      simp at h
      exact h3 h.symm
    | cons d ds =>
      rw [hd] at h
      simp at h
      have hmem : d ∈ (fmtInt id).data := by rw [hd]; exact List.mem_cons_self _ _
      rcases fmtInt_chars id d hmem with hh | hh
      · rw [h, h1] at hh; exact absurd hh (by decide)
      · exact h2 (by rw [← h]; exact hh)
  intro ⟨id, v, hx⟩
  rcases hx with hx | hx | hx
  · exact key id _ (by rw [hx]; exact increasingLine_data id)
  · exact key id _ (by rw [hx]; exact increasedLine_data id v)
  · exact key id _ (by rw [hx]; exact terminatedLine_data id)

set_option maxRecDepth 1000000 in
/-- C7, as stated, fails. In the execution of the program under `seqSchedule` the console
has the lines `Waiting for the parallel jobs to be finished` and
`All jobs finished! Terminating program...`, which `main` writes and which are of none of
the three forms. In the executions under `gluedSchedule` and `gluedSchedule2` a message of
the first worker is inserted between the "Waiting" text of `main` and the line feed of
`std::endl`: the console has the line
`Waiting for the parallel jobs to be finished1) increasing a`, respectively
`Waiting for the parallel jobs to be finished1) a is increased to 1`, followed by an empty
line, neither of any of the three forms, and no line
`Waiting for the parallel jobs to be finished`. -/
theorem lines_not_all_templates :
    (run program init (seqSchedule 4 5) = some finalState ∧ finalState.pc = MainPc.exit ∧
      "All jobs finished! Terminating program..." ∈ consoleLines finalState.cout ∧
      ¬ IsTemplateLine "All jobs finished! Terminating program...\n" ∧
      "Waiting for the parallel jobs to be finished" ∈ consoleLines finalState.cout ∧
      ¬ IsTemplateLine "Waiting for the parallel jobs to be finished\n") ∧
    (run program init gluedSchedule = some gluedState ∧ gluedState.pc = MainPc.exit ∧
      (consoleLines gluedState.cout).take 3 =
        ["Waiting for the parallel jobs to be finished1) increasing a", "",
         "1) a is increased to 1"] ∧
      "Waiting for the parallel jobs to be finished" ∉ consoleLines gluedState.cout ∧
      ¬ IsTemplateLine "Waiting for the parallel jobs to be finished1) increasing a\n" ∧
      ¬ IsTemplateLine "\n") ∧
    (run program init gluedSchedule2 = some gluedState2 ∧ gluedState2.pc = MainPc.exit ∧
      (consoleLines gluedState2.cout).take 3 =
        ["1) increasing a",
         "Waiting for the parallel jobs to be finished1) a is increased to 1", ""] ∧
      "Waiting for the parallel jobs to be finished" ∉ consoleLines gluedState2.cout ∧
      ¬ IsTemplateLine
        "Waiting for the parallel jobs to be finished1) a is increased to 1\n") :=
  ⟨⟨run_seqSchedule, exit_finalState, by decide,
      not_template_of_head _ 'A' rfl rfl (by decide) (by decide), by decide,
      not_template_of_head _ 'W' rfl rfl (by decide) (by decide)⟩,
    ⟨by decide, by decide, by decide, by decide,
      not_template_of_head _ 'W' rfl rfl (by decide) (by decide),
      not_template_of_head _ '\n' rfl rfl (by decide) (by decide)⟩,
    ⟨by decide, by decide, by decide, by decide,
      not_template_of_head _ 'W' rfl rfl (by decide) (by decide)⟩⟩

/-- C7, amended. In every execution, line by line: every line of the console text is, in
full, a line `<id>) increasing a`, `<id>) a is increased to <value>` or
`<id>) is terminated` with an identity in `1..N`; or the line
`All jobs finished! Terminating program...` of `main`; or the text
`Waiting for the parallel jobs to be finished` of `main`, alone on its line or directly
followed on the same line by one `increasing a` or `a is increased to <value>` message of a
worker; or an empty line, which occurs only when the "Waiting" text is followed by such a
message (`LinesShape` gives the order of these lines). By thread: the console is the
sequence of the insertions of the trace; every insertion of the background thread of
element `w` is, in full, the line `<w+1>) increasing a` or `<w+1>) a is increased to <v>`
with its line feed; and the insertions of the main thread are, in order, the first of: the
"Waiting" text, the line feed of `std::endl`, the termination line of each element in the
order of destruction (the destructors), and the "All jobs finished" line; all of them once
`main` has returned. -/
theorem lines_templates_or_main (c : Config) (sched : List (Option Nat)) (s : State)
    (hs : run c init sched = some s) :
    s.cout = outs s.trace ∧
    (∀ w x, Event.out (some w) x ∈ s.trace →
      w < c.N ∧ (x = increasingLine ((w : Int) + 1) ∨
        ∃ v, x = increasedLine ((w : Int) + 1) v)) ∧
    outs (eventsOf none s.trace) <+: mainTexts c ∧
    (s.pc = MainPc.exit → outs (eventsOf none s.trace) = mainTexts c) ∧
    LinesShape c (consoleLines s.cout) ∧
    (∀ l ∈ consoleLines s.cout,
      TemplateText c l ∨ l = "All jobs finished! Terminating program..." ∨
      l = "Waiting for the parallel jobs to be finished" ∨ l = "" ∨
      ∃ m, WorkerText c m ∧ l = "Waiting for the parallel jobs to be finished" ++ m) ∧
    ("" ∈ consoleLines s.cout →
      "Waiting for the parallel jobs to be finished" ∉ consoleLines s.cout ∧
      ∃ m, WorkerText c m ∧
        "Waiting for the parallel jobs to be finished" ++ m ∈ consoleLines s.cout) := by
  have hinv := inv_reachable c sched s hs
  have hshape := lines_shape c s hinv
  have hpre := main_outs_prefix c s hinv
  have hwne : ∀ l, WorkerText c l → l ≠ "" ∧
      l ≠ "Waiting for the parallel jobs to be finished" := by
    intro l hl
    have hp := paren_mem_templateText c l (workerText_template c l hl)
    exact ⟨fun h => by rw [h] at hp; exact absurd hp (by decide),
      fun h => by rw [h] at hp; exact absurd hp (by decide)⟩
  have htne : ∀ l, (TemplateText c l ∨ l = "All jobs finished! Terminating program...") →
      l ≠ "" ∧ l ≠ "Waiting for the parallel jobs to be finished" := by
    intro l hl
    rcases hl with hl | hl
    · have hp := paren_mem_templateText c l hl
      exact ⟨fun h => by rw [h] at hp; exact absurd hp (by decide),
        fun h => by rw [h] at hp; exact absurd hp (by decide)⟩
    · rw [hl]; exact ⟨by decide, by decide⟩
  have hglue : ∀ m, WorkerText c m →
      "Waiting for the parallel jobs to be finished" ++ m
        ≠ "Waiting for the parallel jobs to be finished" := by
    intro m hm h
    have hd := congrArg String.data h
    rw [String.data_append] at hd
    have : m.data = [] := by simpa using hd
    exact (hwne m hm).1 (String.ext this)
  refine ⟨hinv.cout_eq, ?_, hpre.1, hpre.2, hshape, ?_, ?_⟩
  · intro w x hmem
    obtain ⟨hw, hsh⟩ := worker_event_shape c s hinv _ w hmem rfl
    refine ⟨hw, ?_⟩
    rcases hsh with h | ⟨v, h | h⟩
    · injection h with _ h; exact Or.inl h
    · cases h
    · injection h with _ h; exact Or.inr ⟨v, h⟩
  · intro l hl
    rcases hshape with hA | ⟨P, Q, heq, hP, hQ⟩ | ⟨P, m, Q, heq, hm, hP, hQ⟩
    · exact Or.inl (workerText_template c l (hA l hl))
    · rw [heq] at hl
      simp only [List.mem_append, List.mem_cons] at hl
      rcases hl with hl | hl | hl
      · exact Or.inl (workerText_template c l (hP l hl))
      · exact Or.inr (Or.inr (Or.inl hl))
      · rcases hQ l hl with h | h
        · exact Or.inl h
        · exact Or.inr (Or.inl h)
    · rw [heq] at hl
      simp only [List.mem_append, List.mem_cons] at hl
      rcases hl with hl | hl | hl
      · exact Or.inl (workerText_template c l (hP l hl))
      · exact Or.inr (Or.inr (Or.inr (Or.inr ⟨m, hm, hl⟩)))
      · rcases hQ l hl with h | h | h
        · exact Or.inl h
        · exact Or.inr (Or.inl h)
        · exact Or.inr (Or.inr (Or.inr (Or.inl h)))
  · intro hl
    rcases hshape with hA | ⟨P, Q, heq, hP, hQ⟩ | ⟨P, m, Q, heq, hm, hP, hQ⟩
    · exact absurd rfl (hwne "" (hA "" hl)).1
    · rw [heq] at hl
      simp only [List.mem_append, List.mem_cons] at hl
      rcases hl with hl | hl | hl
      · exact absurd rfl (hwne "" (hP "" hl)).1
      · exact absurd hl (by decide)
      · exact absurd rfl (htne "" (hQ "" hl)).1
    · refine ⟨?_, m, hm, by rw [heq]; simp⟩
      rw [heq]
      simp only [List.mem_append, List.mem_cons, not_or]
      refine ⟨fun h => (hwne _ (hP _ h)).2 rfl, fun h => hglue m hm h.symm, fun h => ?_⟩
      rcases hQ _ h with h1 | h1 | h1
      · exact (htne _ (Or.inl h1)).2 rfl
      · exact absurd h1 (by decide)
      · exact absurd h1 (by decide)

set_option maxRecDepth 1000000 in
theorem lines_templates_or_main_witness :
    run program init gluedSchedule = some gluedState ∧
      gluedState.cout = outs gluedState.trace ∧
      outs (eventsOf none gluedState.trace) = mainTexts program ∧
      "" ∈ consoleLines gluedState.cout ∧
      "Waiting for the parallel jobs to be finished" ∉ consoleLines gluedState.cout ∧
      ∃ m, WorkerText program m ∧
        "Waiting for the parallel jobs to be finished" ++ m ∈ consoleLines gluedState.cout :=
  have h := lines_templates_or_main program gluedSchedule gluedState (by decide)
  ⟨by decide, h.1, h.2.2.2.1 (by decide), by decide,
    (h.2.2.2.2.2.2 (by decide)).1, (h.2.2.2.2.2.2 (by decide)).2⟩

end Gorev8
